import Mathlib

/-!
# Verification of the yadro_test repository

Shallow embedding of the two core subsystems of the repository:

* `src/config_data.py` — the configuration diff/patch engine
  (`ConfigData.find_differences`, `ConfigData.do_config_changes`);
* `src/xml_data.py` — the UML-like class-model machinery
  (`XMLComposite.to_xml`, `XMLBuilder`, `XMLParser._resolve_relationships`,
  the multiplicity splitting in `XMLParser.parse`).

Python dictionaries are modelled as insertion-ordered association lists
(`Doc α := List (String × α)`) whose well-formedness invariant (no duplicate
keys) is stated as a hypothesis (`nodupKeys`) where a theorem needs it.
Python `dict.__getitem__`/`in` become `dlookup`/`hasKey`; `dict.__setitem__`
becomes `dinsert` (replace in place if the key is present, else append).
Python's set-derived iteration order is unspecified; the embedding fixes the
deterministic first-seen document order.  Python `dict ==` compares key sets
and values, ignoring insertion order; this is `dictEquiv` below.
-/

namespace Yadro

/-- A configuration document: an insertion-ordered Python dict. -/
abbrev Doc (α : Type) : Type := List (String × α)

/-- Python `d[k]` (first — hence, for a dict, unique — binding of `k`). -/
def dlookup {α : Type} : Doc α → String → Option α
  | [], _ => none
  | p :: rest, k => if p.1 = k then some p.2 else dlookup rest k

/-- Python `k in d`. -/
def hasKey {α : Type} : Doc α → String → Bool
  | [], _ => false
  | p :: rest, k => if p.1 = k then true else hasKey rest k

/-- Python `d[k] = v`: replace the binding in place if `k` is present,
otherwise append a fresh binding at the end. -/
def dinsert {α : Type} (d : Doc α) (k : String) (v : α) : Doc α :=
  if hasKey d k then d.map (fun p => if p.1 = k then (k, v) else p)
  else d ++ [(k, v)]

/-- Membership test on a plain list of keys (Python `k in deletions`). -/
def strListContains : List String → String → Bool
  | [], _ => false
  | x :: rest, k => if x = k then true else strListContains rest k

/-- The dict invariant: no duplicate keys. -/
abbrev nodupKeys {α : Type} (d : Doc α) : Prop := (d.map Prod.fst).Nodup

/-- Python `dict ==`: same keys, equal values (insertion order ignored). -/
def dictEquiv {α : Type} (d₁ d₂ : Doc α) : Prop :=
  ∀ k, dlookup d₁ k = dlookup d₂ k

/-- The shape of `ConfigData.find_differences`' result: the `additions` /
`deletions` / `updates` lists (an update entry `(k, f, t)` is the Python
`{"key": k, "from": f, "to": t}`). -/
structure Diff (α : Type) where
  additions : List (String × α)
  deletions : List String
  updates : List (String × α × α)
deriving DecidableEq, Repr

/-- `ConfigData.find_differences` (src/config_data.py:5-50).
Additions are the entries of `new_config` whose key is absent from
`old_config`; deletions the keys of `old_config` absent from `new_config`;
updates the shared keys whose values differ (`old[k] != new[k]`, i.e.
structural disequality of the values).  The Python code iterates over set
differences in unspecified order; the embedding uses first-seen document
order. -/
def find_differences {α : Type} [DecidableEq α] (old_config new_config : Doc α) :
    Diff α where
  additions := new_config.filter (fun p => ! hasKey old_config p.1)
  deletions := (old_config.filter (fun p => ! hasKey new_config p.1)).map Prod.fst
  updates := old_config.filterMap (fun p =>
    match dlookup new_config p.1 with
    | some w => if p.2 ≠ w then some (p.1, p.2, w) else none
    | none => none)

/-- The first two loops of `ConfigData.do_config_changes`
(src/config_data.py:69-80): starting from the empty dict `new_json`,
write each addition's value and then each update's `to` value, skipping
entries whose key is falsy (the empty string). -/
def appliedChanges {α : Type} (diff_config : Diff α) : Doc α :=
  let new_json : Doc α := []
  let new_json := diff_config.additions.foldl
    (fun nj a => if a.1 ≠ "" then dinsert nj a.1 a.2 else nj) new_json
  diff_config.updates.foldl
    (fun nj u => if u.1 ≠ "" then dinsert nj u.1 u.2.2 else nj) new_json

/-- `ConfigData.do_config_changes` (src/config_data.py:53-87): after the
addition/update loops (`appliedChanges`), every key of `old_config` that is
neither already present in `new_json` nor listed in `deletions` is copied
over.  Those keys are fresh for `new_json`, so each Python `new_json[param] =
old_config[param]` appends; the embedding uses `old_config`'s document order
for the set-derived iteration. -/
def do_config_changes {α : Type} (old_config : Doc α) (diff_config : Diff α) :
    Doc α :=
  let new_json := appliedChanges diff_config
  new_json ++ old_config.filter
    (fun p => ! hasKey new_json p.1 && ! strListContains diff_config.deletions p.1)

/-! ## Embedding of src/xml_data.py -/

/-- A parameter of a class: a primitive attribute (`type` is the primitive
type name) or a class reference (`type` is the literal `"class"` and `name`
the referenced class name). -/
structure ParameterRecord where
  name : String
  type : String
deriving DecidableEq, Repr

/-- One parsed class record (`XMLParser.parse`, src/xml_data.py:150-163).
The Python dict key `'class'` is `className` here (`class` is reserved in
Lean); `min`/`max` are absent until `_resolve_relationships` sets them. -/
structure ClassRecord where
  className : String
  documentation : String
  isRoot : Bool
  parameters : List ParameterRecord
  min : Option String := none
  max : Option String := none
deriving DecidableEq, Repr

/-- One parsed `Aggregation` element (src/xml_data.py:165-177). -/
structure Aggregation where
  source : String
  target : String
  min : String
  max : String
deriving DecidableEq, Repr

/-- `XMLParser._resolve_relationships` (src/xml_data.py:185-203): for each
aggregation in declaration order, append a class-typed parameter named after
the source to the target class (when that class exists), and set the source
class's `min`/`max` (when that class exists).  The parser's dict of classes
is modelled as the record list in declaration order; each step rewrites only
the record whose name matches, which is the dict update for the parser's
unique class names. -/
def applyAggregation (agg : Aggregation) (record : ClassRecord) : ClassRecord :=
  let withChild :=
    if record.className = agg.target then
      { record with parameters :=
          record.parameters ++ [⟨agg.source, "class"⟩] }
    else record
  if withChild.className = agg.source then
    { withChild with min := some agg.min, max := some agg.max }
  else withChild

/-- The loop of `_resolve_relationships` over the aggregation list, acting
on the class mapping. -/
def resolve_relationships (aggregations : List Aggregation)
    (classes : List ClassRecord) : List ClassRecord :=
  aggregations.foldl (fun cs agg => cs.map (applyAggregation agg)) classes

/-- Python `'..' in multiplicity` for the two-dot separator, over the
character list of the string. -/
def hasDots : List Char → Bool
  | [] => false
  | [_] => false
  | c1 :: c2 :: rest =>
    if c1 = '.' ∧ c2 = '.' then true else hasDots (c2 :: rest)

/-- Python `multiplicity.split('..')`: split on non-overlapping occurrences
of the two-dot separator, scanning from the left. -/
def splitDots : List Char → List (List Char)
  | [] => [[]]
  | [c] => [[c]]
  | c1 :: c2 :: rest =>
    if c1 = '.' ∧ c2 = '.' then [] :: splitDots rest
    else
      match splitDots (c2 :: rest) with
      | [] => [[c1]]
      | g :: gs => (c1 :: g) :: gs

/-- The `min` of a parsed `Aggregation` (src/xml_data.py:170-177):
`multiplicity.split('..')[0] if '..' in multiplicity else multiplicity`. -/
def multMin (m : List Char) : List Char :=
  if hasDots m then (splitDots m).headD [] else m

/-- The `max` of a parsed `Aggregation`: `split('..')[1]` when the separator
occurs (the split then has at least two chunks, so the default is never
taken), else the whole string. -/
def multMax (m : List Char) : List Char :=
  if hasDots m then ((splitDots m)[1]?).getD [] else m

/-- A node of the composite tree (`XMLComposite`, src/xml_data.py:17-36):
tag name, optional attribute content (the attribute's type string, `None`
for class nodes), list of children. -/
inductive XMLComposite where
  | node (name : String) (attribute_value : Option String)
      (children : List XMLComposite)

def XMLComposite.name : XMLComposite → String
  | .node n _ _ => n

/-- Python truthiness of `self.attribute_value` (`None` and `""` falsy). -/
def truthyOpt : Option String → Bool
  | none => false
  | some s => if s = "" then false else true

/-- Python `"\n".join(lines)`. -/
def joinLines : List String → String
  | [] => ""
  | [l] => l
  | l :: ls => l ++ "\n" ++ joinLines ls

/-- Python `"    " * indent`. -/
def indentStr : Nat → String
  | 0 => ""
  | n + 1 => indentStr n ++ "    "

mutual

/-- `XMLComposite.to_xml` (src/xml_data.py:38-68): if the node has children,
an opening tag line, the children rendered at `indent + 1`, and the closing
tag line, newline-joined; otherwise, if the attribute value is truthy, the
single line `<name>value</name>`; otherwise the two-line empty tag pair. -/
def XMLComposite.to_xml : XMLComposite → Nat → String
  | .node name av children, indent =>
    if children.isEmpty = false then
      joinLines ((indentStr indent ++ "<" ++ name ++ ">") ::
        (XMLComposite.to_xml_list children (indent + 1) ++
          [indentStr indent ++ "</" ++ name ++ ">"]))
    else if truthyOpt av then
      indentStr indent ++ "<" ++ name ++ ">" ++ av.getD "" ++ "</" ++ name ++ ">"
    else
      indentStr indent ++ "<" ++ name ++ ">" ++ "\n" ++
        indentStr indent ++ "</" ++ name ++ ">"

/-- The child renderings collected by the `for child in self.children` loop
of `to_xml`. -/
def XMLComposite.to_xml_list : List XMLComposite → Nat → List String
  | [], _ => []
  | c :: cs, indent =>
    XMLComposite.to_xml c indent :: XMLComposite.to_xml_list cs indent

end

/-- `XMLBuilder.__init__`'s `self.data = {item['class']: item for item in
json_data}` (src/xml_data.py:80): an insertion-ordered dict keyed by class
name. -/
def builderData (json_data : List ClassRecord) : Doc ClassRecord :=
  json_data.foldl (fun d item => dinsert d item.className item) []

/-- `XMLBuilder._find_root` (src/xml_data.py:94-103): the first record in
dict order flagged `isRoot`; `none` models the implicit Python `None` when
no record is flagged. -/
def find_root (data : Doc ClassRecord) : Option ClassRecord :=
  (data.map Prod.snd).find? (fun item => item.isRoot)

/-- The `for param in self.data[class_name]['parameters']` loop of
`_build_component_obj` (src/xml_data.py:116-122), parameterized by the
recursive builder for class-typed parameters: any other parameter becomes a
leaf node carrying its type. -/
def build_children (buildChild : String → Option XMLComposite) :
    List ParameterRecord → Option (List XMLComposite)
  | [] => some []
  | param :: rest =>
    match (if param.type = "class" then buildChild param.name
           else some (XMLComposite.node param.name (some param.type) [])) with
    | none => none
    | some child =>
      match build_children buildChild rest with
      | none => none
      | some cs => some (child :: cs)

/-- `XMLBuilder._build_component_obj` (src/xml_data.py:105-123), with a fuel
parameter making the recursion total (the source relies on the caller-side
acyclicity invariant): `none` models exhausted fuel or a missing class
(a Python `KeyError`). -/
def build_component_obj (data : Doc ClassRecord) :
    Nat → String → Option XMLComposite
  | 0, _ => none
  | fuel + 1, class_name =>
    match dlookup data class_name with
    | none => none
    | some record =>
      match build_children (fun n => build_component_obj data fuel n)
          record.parameters with
      | none => none
      | some cs => some (XMLComposite.node class_name none cs)

/-- `XMLBuilder.build` (src/xml_data.py:84-92) over parsed records: find the
root, build the component for the root's class name, render it at indent 0.
Python crashes on a `None` root (`self.root['class']`); the embedding
returns `none` there and on exhausted fuel. -/
def XMLBuilder.build (json_data : List ClassRecord) (fuel : Nat) :
    Option String :=
  match find_root (builderData json_data) with
  | none => none
  | some root =>
    match build_component_obj (builderData json_data) fuel root.className with
    | none => none
    | some c => some (c.to_xml 0)

/-! ## Line/scanner model of the rendered string

The claims about the rendered output speak of its lines, its tag-nesting
depth and the leaf tags occurring in it.  `strLines` splits a string at
newlines; `renderLines` is the line-list the renderer produces (proved equal
to the lines of `to_xml`); `scanSt`/`tagDepth` scan a raw character stream
for `<...>` / `</...>` tags and compute the maximal nesting depth. -/

/-- Split a character stream at newline characters. -/
def splitNl : List Char → List (List Char)
  | [] => [[]]
  | c :: rest =>
    if c = '\n' then [] :: splitNl rest
    else
      match splitNl rest with
      | [] => [[c]]
      | g :: gs => (c :: g) :: gs

/-- The lines of a string. -/
def strLines (s : String) : List String := (splitNl s.data).map List.asString

/-- Whether a string is newline-free (so that it is a single line). -/
def noNlStr (s : String) : Bool := s.data.all (fun c => c ≠ '\n')

mutual

/-- The rendering of a node, as the list of its output lines (the string
`to_xml` joins with newlines). -/
def renderLines : XMLComposite → Nat → List String
  | .node name av children, indent =>
    if children.isEmpty = false then
      (indentStr indent ++ "<" ++ name ++ ">") ::
        (renderLinesList children (indent + 1) ++
          [indentStr indent ++ "</" ++ name ++ ">"])
    else if truthyOpt av then
      [indentStr indent ++ "<" ++ name ++ ">" ++ av.getD "" ++ "</" ++ name ++ ">"]
    else
      [indentStr indent ++ "<" ++ name ++ ">",
       indentStr indent ++ "</" ++ name ++ ">"]

def renderLinesList : List XMLComposite → Nat → List String
  | [], _ => []
  | c :: cs, indent => renderLines c indent ++ renderLinesList cs indent

end

/-- Tag scanner: `<c…` with `c ≠ '/'` opens a tag (depth increases and the
running maximum is updated), `</…` closes one; all other characters are
content.  The state is `(current open-tag count, maximum reached)`. -/
def scanSt : List Char → Nat × Nat → Nat × Nat
  | [], st => st
  | [c], (cur, mx) => if c = '<' then (cur + 1, max mx (cur + 1)) else (cur, mx)
  | c1 :: c2 :: rest, (cur, mx) =>
    if c1 = '<' then
      if c2 = '/' then scanSt rest (cur - 1, mx)
      else scanSt (c2 :: rest) (cur + 1, max mx (cur + 1))
    else scanSt (c2 :: rest) (cur, mx)

/-- The tag-nesting depth of a string: the maximal number of simultaneously
open tags while scanning it. -/
def tagDepth (s : String) : Nat := (scanSt s.data (0, 0)).2

mutual

/-- The nesting depth of a composite tree (a lone node has depth 1). -/
def XMLComposite.depth : XMLComposite → Nat
  | .node _ _ cs => 1 + XMLComposite.depthList cs

def XMLComposite.depthList : List XMLComposite → Nat
  | [] => 0
  | c :: cs => max (XMLComposite.depth c) (XMLComposite.depthList cs)

end

mutual

/-- The number of leaf tags with name `n` and content `v` a tree renders
(childless nodes whose attribute value is `some v`). -/
def leafCount (n v : String) : XMLComposite → Nat
  | .node m av cs =>
    if cs.isEmpty then (if m = n ∧ av = some v then 1 else 0)
    else leafCountList n v cs

def leafCountList (n v : String) : List XMLComposite → Nat
  | [] => 0
  | c :: cs => leafCount n v c + leafCountList n v cs

end

/-- A string usable as a tag name without confusing the scanner: non-empty,
free of `<`, `>` and newlines, and not starting with `/`. -/
def tameName (s : String) : Bool :=
  ! s.data.isEmpty &&
    s.data.all (fun c => c ≠ '<' ∧ c ≠ '>' ∧ c ≠ '\n') &&
    ! (s.data.head? = some '/')

/-- A string usable as leaf-tag content: free of `<` and newlines. -/
def tameValue (s : String) : Bool := s.data.all (fun c => c ≠ '<' ∧ c ≠ '\n')

mutual

/-- No tag name or attribute value in the tree contains a newline (so the
lines of the rendered string are exactly the renderer's lines). -/
def noNlTree : XMLComposite → Bool
  | .node m av cs =>
    noNlStr m &&
      (match av with | some v => noNlStr v | none => true) &&
      noNlList cs

def noNlList : List XMLComposite → Bool
  | [] => true
  | c :: cs => noNlTree c && noNlList cs

end

mutual

/-- All tag names of the tree are tame and all attribute values well
behaved. -/
def tameTree : XMLComposite → Bool
  | .node m av cs =>
    tameName m &&
      (match av with | some v => tameValue v | none => true) &&
      tameTreeList cs

def tameTreeList : List XMLComposite → Bool
  | [] => true
  | c :: cs => tameTree c && tameTreeList cs

end

/-- All parameter names and types of a class record are well behaved. -/
def tameRecord (record : ClassRecord) : Bool :=
  record.parameters.all (fun p => tameName p.name && tameValue p.type)

/-- A class mapping whose keys and parameters are all well behaved. -/
def tameModel (data : Doc ClassRecord) : Bool :=
  data.all (fun kv => tameName kv.1 && tameRecord kv.2)

/-- Drop the indentation of a rendered line. -/
def stripIndent (s : String) : String := (s.data.dropWhile (fun c => c = ' ')).asString

/-- The leaf tag `<n>v</n>`. -/
def leafTagStr (n v : String) : String := "<" ++ n ++ ">" ++ v ++ "</" ++ n ++ ">"

/-- How often the leaf tag `<n>v</n>` occurs as a line (up to indentation)
of the string `s`. -/
def leafLineCount (s : String) (n v : String) : Nat :=
  ((strLines s).map stripIndent).count (leafTagStr n v)

/-- The `(n, v)`-attribute occurrences contributed by a parameter list:
class-typed parameters contribute the occurrences of the referenced class,
a primitive attribute contributes one when its name is `n` and its type is
`v`. -/
def modelLeafCountParams (count : String → Nat) (n v : String) :
    List ParameterRecord → Nat
  | [] => 0
  | p :: rest =>
    (if p.type = "class" then count p.name
     else if p.name = n ∧ p.type = v then 1 else 0) +
      modelLeafCountParams count n v rest

/-- The total number of `(n, v)`-attribute occurrences over all class
occurrences reachable from `class_name` (mirroring the recursion of
`_build_component_obj`). -/
def modelLeafCount (data : Doc ClassRecord) (n v : String) :
    Nat → String → Nat
  | 0, _ => 0
  | fuel + 1, class_name =>
    match dlookup data class_name with
    | none => 0
    | some record =>
      modelLeafCountParams (fun m => modelLeafCount data n v fuel m) n v
        record.parameters

/-- The maximal class-reference chain contribution of a parameter list. -/
def specChainDepthParams (depthOf : String → Nat) :
    List ParameterRecord → Nat
  | [] => 0
  | p :: rest =>
    max (if p.type = "class" then depthOf p.name else 0)
      (specChainDepthParams depthOf rest)

/-- Modelled from the spec: the "class-reference chain depth from the root"
(§8) — the number of classes on the longest chain of class-reference edges
starting at the given class; the source has no such function, the spec uses
the notion to describe the rendered output. -/
def specChainDepth (data : Doc ClassRecord) : Nat → String → Nat
  | 0, _ => 0
  | fuel + 1, class_name =>
    match dlookup data class_name with
    | none => 0
    | some record =>
      1 + specChainDepthParams (fun m => specChainDepth data fuel m)
        record.parameters

/-! ## Basic dictionary lemmas -/

theorem hasKey_eq_isSome {α : Type} (d : Doc α) (k : String) :
    hasKey d k = (dlookup d k).isSome := by
  induction d with
  | nil => rfl
  | cons p rest ih =>
    simp only [hasKey, dlookup]
    split <;> simp [ih]

theorem hasKey_iff_mem {α : Type} (d : Doc α) (k : String) :
    hasKey d k = true ↔ k ∈ d.map Prod.fst := by
  induction d with
  | nil => simp [hasKey]
  | cons p rest ih =>
    simp only [hasKey, List.map_cons, List.mem_cons]
    split
    · simp_all
    · simp only [ih]
      constructor
      · exact Or.inr
      · rintro (h | h)
        · exact absurd h.symm (by assumption)
        · exact h

theorem dlookup_eq_none {α : Type} (d : Doc α) (k : String)
    (h : ¬ k ∈ d.map Prod.fst) : dlookup d k = none := by
  cases hd : dlookup d k with
  | none => rfl
  | some v =>
    exact absurd ((hasKey_iff_mem d k).mp (by rw [hasKey_eq_isSome, hd]; rfl)) h

theorem dlookup_append {α : Type} (d₁ d₂ : Doc α) (k : String) :
    dlookup (d₁ ++ d₂) k =
      match dlookup d₁ k with
      | some v => some v
      | none => dlookup d₂ k := by
  induction d₁ with
  | nil => simp [dlookup]
  | cons p rest ih =>
    simp only [List.cons_append, dlookup]
    split <;> simp [ih]

theorem dlookup_map_set {α : Type} (d : Doc α) (k k' : String) (v : α) :
    dlookup (d.map (fun p => if p.1 = k' then (k', v) else p)) k =
      if k = k' then (if hasKey d k' then some v else none)
      else dlookup d k := by
  induction d with
  | nil => simp [dlookup, hasKey]
  | cons p rest ih =>
    by_cases hp : p.1 = k'
    · by_cases hk : k = k'
      · subst hk
        simp [dlookup, hasKey, hp, List.map_cons]
      · have hk2 : ¬ k' = k := fun h => hk h.symm
        have hpk : ¬ p.1 = k := by rw [hp]; exact hk2
        simp [dlookup, hasKey, hp, hk, hk2, hpk, ih, List.map_cons]
    · by_cases hpk : p.1 = k
      · have hk : ¬ k = k' := fun h => hp (hpk.trans h)
        simp [dlookup, hasKey, hp, hpk, hk, List.map_cons]
      · simp [dlookup, hasKey, hp, hpk, ih, List.map_cons]

theorem dlookup_dinsert {α : Type} (d : Doc α) (k k' : String) (v : α) :
    dlookup (dinsert d k' v) k = if k = k' then some v else dlookup d k := by
  unfold dinsert
  by_cases h : hasKey d k' = true
  · simp only [h, if_true, dlookup_map_set, h]
  · have h' : hasKey d k' = false := by simpa using h
    simp only [h', Bool.false_eq_true, if_false, dlookup_append]
    by_cases hk : k = k'
    · subst hk
      have : dlookup d k = none := by
        rw [hasKey_eq_isSome] at h'
        exact Option.not_isSome_iff_eq_none.mp (by simp [h'])
      simp [this, dlookup]
    · rcases hd : dlookup d k with _ | w
      · have hk2 : ¬ k' = k := fun h => hk h.symm
        simp [dlookup, hk2, hk]
      · simp [hk]

theorem strListContains_iff (l : List String) (k : String) :
    strListContains l k = true ↔ k ∈ l := by
  induction l with
  | nil => simp [strListContains]
  | cons x rest ih =>
    simp only [strListContains, List.mem_cons]
    split
    · simp_all
    · simp only [ih]
      constructor
      · exact Or.inr
      · rintro (h | h)
        · exact absurd h.symm (by assumption)
        · exact h

theorem dlookup_filter_key {α : Type} (q : String → Bool) (d : Doc α) (k : String) :
    dlookup (d.filter (fun p => q p.1)) k =
      if q k then dlookup d k else none := by
  induction d with
  | nil => simp [dlookup]
  | cons p rest ih =>
    by_cases hpk : p.1 = k
    · subst hpk
      by_cases hq : q p.1
      · simp [List.filter_cons, hq, dlookup, ih]
      · simp only [List.filter_cons]
        have hq' : q p.1 = false := by simpa using hq
        simp [hq', dlookup, ih]
    · by_cases hq : q p.1
      · simp [List.filter_cons, hq, dlookup, hpk, ih]
      · have hq' : q p.1 = false := by simpa using hq
        simp [List.filter_cons, hq', dlookup, hpk, ih]

theorem dlookup_eq_some_iff {α : Type} (d : Doc α) (hd : nodupKeys d)
    (k : String) (v : α) : dlookup d k = some v ↔ (k, v) ∈ d := by
  induction d with
  | nil => simp [dlookup]
  | cons p rest ih =>
    obtain ⟨k', v'⟩ := p
    have hd' : nodupKeys rest := (List.nodup_cons.mp hd).2
    have hmem : k' ∉ rest.map Prod.fst := by
      simpa using (List.nodup_cons.mp hd).1
    simp only [dlookup, List.mem_cons]
    by_cases hk : k' = k
    · subst hk
      constructor
      · intro h
        rw [if_pos rfl] at h
        injection h with h2
        subst h2
        exact Or.inl rfl
      · rintro (h | h)
        · injection h with h1 h2
          rw [if_pos rfl, h2]
        · exact absurd (List.mem_map_of_mem Prod.fst h) (by simpa using hmem)
    · simp only [if_neg hk, ih hd']
      constructor
      · exact Or.inr
      · rintro (h | h)
        · injection h with h1 h2
          exact absurd h1.symm hk
        · exact h

/-! ## Lemmas on the fold structure of `do_config_changes` -/

theorem dlookup_foldl_add {α : Type} (l : Doc α) :
    ∀ (acc : Doc α), (l.map Prod.fst).Nodup → (∀ p ∈ l, p.1 ≠ "") →
    ∀ k, dlookup (l.foldl
        (fun nj a => if a.1 ≠ "" then dinsert nj a.1 a.2 else nj) acc) k =
      match dlookup l k with
      | some v => some v
      | none => dlookup acc k := by
  induction l with
  | nil => intro acc _ _ k; simp [dlookup]
  | cons p rest ih =>
    intro acc hnd hne k
    have hp : p.1 ≠ "" := hne p (List.mem_cons_self p rest)
    have hnd' : (rest.map Prod.fst).Nodup := (List.nodup_cons.mp hnd).2
    have hmem : p.1 ∉ rest.map Prod.fst := (List.nodup_cons.mp hnd).1
    simp only [List.foldl_cons, if_pos hp]
    rw [ih (dinsert acc p.1 p.2) hnd'
        (fun q hq => hne q (List.mem_cons_of_mem _ hq)) k]
    by_cases hk : p.1 = k
    · subst hk
      rw [dlookup_eq_none rest p.1 hmem]
      simp [dlookup, dlookup_dinsert]
    · simp only [dlookup, if_neg hk]
      cases hr : dlookup rest k with
      | some w => rfl
      | none =>
        simp only [dlookup_dinsert]
        rw [if_neg (fun h => hk h.symm)]

theorem dlookup_foldl_upd {α : Type} (l : Doc (α × α)) :
    ∀ (acc : Doc α), (l.map Prod.fst).Nodup → (∀ p ∈ l, p.1 ≠ "") →
    ∀ k, dlookup (l.foldl
        (fun nj u => if u.1 ≠ "" then dinsert nj u.1 u.2.2 else nj) acc) k =
      match dlookup l k with
      | some fv => some fv.2
      | none => dlookup acc k := by
  induction l with
  | nil => intro acc _ _ k; simp [dlookup]
  | cons p rest ih =>
    intro acc hnd hne k
    have hp : p.1 ≠ "" := hne p (List.mem_cons_self p rest)
    have hnd' : (rest.map Prod.fst).Nodup := (List.nodup_cons.mp hnd).2
    have hmem : p.1 ∉ rest.map Prod.fst := (List.nodup_cons.mp hnd).1
    simp only [List.foldl_cons, if_pos hp]
    rw [ih (dinsert acc p.1 p.2.2) hnd'
        (fun q hq => hne q (List.mem_cons_of_mem _ hq)) k]
    by_cases hk : p.1 = k
    · subst hk
      rw [dlookup_eq_none rest p.1 hmem]
      simp [dlookup, dlookup_dinsert]
    · simp only [dlookup, if_neg hk]
      cases hr : dlookup rest k with
      | some w => rfl
      | none =>
        simp only [dlookup_dinsert]
        rw [if_neg (fun h => hk h.symm)]

/-! ## Characterization of the three diff components -/

theorem additions_keys_sublist {α : Type} [DecidableEq α] (old new : Doc α) :
    ((find_differences old new).additions.map Prod.fst).Sublist
      (new.map Prod.fst) :=
  (List.filter_sublist new).map Prod.fst

theorem updates_keys_sublist {α : Type} [DecidableEq α] (old new : Doc α) :
    ((find_differences old new).updates.map Prod.fst).Sublist
      (old.map Prod.fst) := by
  unfold find_differences
  induction old with
  | nil => simp
  | cons p rest ih =>
    simp only [List.filterMap_cons]
    split
    · exact ih.cons p.1
    · next u hu =>
      have hu1 : u.1 = p.1 := by
        revert hu
        cases dlookup new p.1 with
        | none => intro h; cases h
        | some w =>
          by_cases hne : p.2 ≠ w
          · intro h
            simp only [if_pos hne] at h
            cases h; rfl
          · intro h; simp [if_neg hne] at h
      simpa [hu1] using ih.cons₂ p.1

theorem dlookup_additions {α : Type} [DecidableEq α] (old new : Doc α)
    (k : String) :
    dlookup (find_differences old new).additions k =
      if hasKey old k then none else dlookup new k := by
  cases hk : hasKey old k
  · exact (dlookup_filter_key (fun s => ! hasKey old s) new k).trans (by simp [hk])
  · exact (dlookup_filter_key (fun s => ! hasKey old s) new k).trans (by simp [hk])

theorem dlookup_filterMap_upd {α : Type} [DecidableEq α] (new : Doc α) :
    ∀ (old : Doc α), nodupKeys old → ∀ k,
    dlookup (old.filterMap (fun p =>
        match dlookup new p.1 with
        | some w => if p.2 ≠ w then some (p.1, p.2, w) else none
        | none => none)) k =
      match dlookup old k with
      | some v =>
        match dlookup new k with
        | some w => if v ≠ w then some (v, w) else none
        | none => none
      | none => none := by
  intro old
  induction old with
  | nil => intro _ k; simp [dlookup]
  | cons p rest ih =>
    intro hold k
    have hd' : nodupKeys rest := (List.nodup_cons.mp hold).2
    have hmem : p.1 ∉ rest.map Prod.fst := (List.nodup_cons.mp hold).1
    have hrestnone : dlookup (rest.filterMap (fun p =>
        match dlookup new p.1 with
        | some w => if p.2 ≠ w then some (p.1, p.2, w) else none
        | none => none)) p.1 = none := by
      apply dlookup_eq_none
      intro hmm
      exact hmem ((updates_keys_sublist rest new).subset hmm)
    rw [List.filterMap_cons]
    by_cases hk : p.1 = k
    · subst hk
      cases hnw : dlookup new p.1 with
      | none => simpa [dlookup, hnw] using hrestnone
      | some w =>
        by_cases hvw : p.2 ≠ w
        · simp [hnw, if_pos hvw, dlookup, hvw]
        · simpa [hnw, if_neg hvw, dlookup, hvw] using hrestnone
    · cases hnw : dlookup new p.1 with
      | none =>
        simp only [hnw]
        rw [ih hd' k]
        simp [dlookup, if_neg hk]
      | some w =>
        by_cases hvw : p.2 ≠ w
        · simp only [hnw, if_pos hvw]
          show dlookup ((p.1, p.2, w) :: _) k = _
          simp only [dlookup, if_neg hk]
          rw [ih hd' k]
        · simp only [hnw, if_neg hvw]
          rw [ih hd' k]
          simp [dlookup, if_neg hk]

theorem dlookup_updates {α : Type} [DecidableEq α] (old new : Doc α)
    (hold : nodupKeys old) (k : String) :
    dlookup (find_differences old new).updates k =
      match dlookup old k with
      | some v =>
        match dlookup new k with
        | some w => if v ≠ w then some (v, w) else none
        | none => none
      | none => none :=
  dlookup_filterMap_upd new old hold k

theorem mem_deletions_iff {α : Type} [DecidableEq α] (old new : Doc α)
    (k : String) :
    k ∈ (find_differences old new).deletions ↔
      (hasKey old k = true ∧ hasKey new k = false) := by
  unfold find_differences
  simp only [List.mem_map, List.mem_filter]
  constructor
  · rintro ⟨p, ⟨hmem, hfilt⟩, hfst⟩
    subst hfst
    refine ⟨(hasKey_iff_mem old p.1).mpr (List.mem_map_of_mem Prod.fst hmem), ?_⟩
    simpa using hfilt
  · rintro ⟨ho, hn⟩
    rcases List.mem_map.mp ((hasKey_iff_mem old k).mp ho) with ⟨p, hmem, hfst⟩
    exact ⟨p, ⟨hmem, by simp [hfst, hn]⟩, hfst⟩

theorem deletions_nodup {α : Type} [DecidableEq α] (old new : Doc α)
    (hold : nodupKeys old) : (find_differences old new).deletions.Nodup :=
  hold.sublist ((List.filter_sublist old).map Prod.fst)

theorem mem_updates_key {α : Type} [DecidableEq α] (old new : Doc α)
    (u : String × α × α) (hu : u ∈ (find_differences old new).updates) :
    ∃ p ∈ old, p.1 = u.1 := by
  obtain ⟨p, hp, hg⟩ := List.mem_filterMap.mp hu
  refine ⟨p, hp, ?_⟩
  revert hg
  cases dlookup new p.1 with
  | none => intro h; cases h
  | some w =>
    by_cases hvw : p.2 ≠ w
    · intro h
      simp only [if_pos hvw] at h
      cases h; rfl
    · intro h
      simp [if_neg hvw] at h

theorem dlookup_appliedChanges {α : Type} [DecidableEq α] (old new : Doc α)
    (hold : nodupKeys old) (hnew : nodupKeys new)
    (hko : ∀ p ∈ old, p.1 ≠ "") (hkn : ∀ p ∈ new, p.1 ≠ "") (k : String) :
    dlookup (appliedChanges (find_differences old new)) k =
      match dlookup old k, dlookup new k with
      | some v, some w => if v ≠ w then some w else none
      | none, some w => some w
      | _, none => none := by
  have hA : ((find_differences old new).additions.map Prod.fst).Nodup :=
    hnew.sublist (additions_keys_sublist old new)
  have hAne : ∀ p ∈ (find_differences old new).additions, p.1 ≠ "" :=
    fun p hp => hkn p (List.mem_filter.mp hp).1
  have hU : ((find_differences old new).updates.map Prod.fst).Nodup :=
    hold.sublist (updates_keys_sublist old new)
  have hUne : ∀ u ∈ (find_differences old new).updates, u.1 ≠ "" := by
    intro u hu
    obtain ⟨p, hp, hpk⟩ := mem_updates_key old new u hu
    exact hpk ▸ hko p hp
  rw [show appliedChanges (find_differences old new) =
      (find_differences old new).updates.foldl
        (fun nj u => if u.1 ≠ "" then dinsert nj u.1 u.2.2 else nj)
        ((find_differences old new).additions.foldl
          (fun nj a => if a.1 ≠ "" then dinsert nj a.1 a.2 else nj) []) from rfl]
  rw [dlookup_foldl_upd _ _ hU hUne k]
  rw [dlookup_updates old new hold k]
  rw [dlookup_foldl_add _ _ hA hAne k]
  rw [dlookup_additions old new k]
  rcases hno : dlookup old k with _ | v <;> rcases hnn : dlookup new k with _ | w
  · simp [hasKey_eq_isSome, hno, hnn, dlookup]
  · simp [hasKey_eq_isSome, hno, hnn]
  · simp [hasKey_eq_isSome, hno, hnn, dlookup]
  · by_cases hvw : v ≠ w
    · simp [hasKey_eq_isSome, hno, hnn, hvw]
    · simp [hasKey_eq_isSome, hno, hnn, hvw, dlookup]

theorem mem_additions_iff {α : Type} [DecidableEq α] (old new : Doc α)
    (hnew : nodupKeys new) (k : String) (v : α) :
    (k, v) ∈ (find_differences old new).additions ↔
      (hasKey old k = false ∧ dlookup new k = some v) := by
  show (k, v) ∈ new.filter (fun p => ! hasKey old p.1) ↔ _
  rw [List.mem_filter]
  rw [← dlookup_eq_some_iff new hnew k v]
  constructor
  · rintro ⟨h1, h2⟩
    exact ⟨by simpa using h2, h1⟩
  · rintro ⟨h1, h2⟩
    exact ⟨h2, by simpa using h1⟩

theorem mem_updates_iff {α : Type} [DecidableEq α] (old new : Doc α)
    (hold : nodupKeys old) (k : String) (f t : α) :
    (k, f, t) ∈ (find_differences old new).updates ↔
      (dlookup old k = some f ∧ dlookup new k = some t ∧ f ≠ t) := by
  have hU : nodupKeys ((find_differences old new).updates : Doc (α × α)) :=
    hold.sublist (updates_keys_sublist old new)
  rw [show ((k, f, t) ∈ (find_differences old new).updates) =
      ((k, (f, t)) ∈ ((find_differences old new).updates : Doc (α × α))) from rfl]
  rw [← dlookup_eq_some_iff _ hU k (f, t), dlookup_updates old new hold k]
  rcases hno : dlookup old k with _ | v
  · constructor
    · intro h; cases h
    · rintro ⟨h, -⟩; cases h
  · rcases hnn : dlookup new k with _ | w
    · constructor
      · intro h; cases h
      · rintro ⟨-, h, -⟩; cases h
    · by_cases hvw : v ≠ w
      · simp only [if_pos hvw]
        constructor
        · intro h
          injection h with h2
          injection h2 with hf ht
          subst hf; subst ht
          exact ⟨rfl, rfl, hvw⟩
        · rintro ⟨h1, h2, -⟩
          injection h1 with h1
          injection h2 with h2
          rw [h1, h2]
      · simp only [if_neg hvw]
        constructor
        · intro h; cases h
        · rintro ⟨h1, h2, h3⟩
          injection h1 with h1
          injection h2 with h2
          exact absurd (h1 ▸ h2 ▸ h3) hvw

theorem mem_additions_keys_iff {α : Type} [DecidableEq α] (old new : Doc α)
    (k : String) :
    k ∈ (find_differences old new).additions.map Prod.fst ↔
      (hasKey new k = true ∧ hasKey old k = false) := by
  show k ∈ (new.filter (fun p => ! hasKey old p.1)).map Prod.fst ↔ _
  simp only [List.mem_map, List.mem_filter]
  constructor
  · rintro ⟨p, ⟨hmem, hfilt⟩, hfst⟩
    subst hfst
    exact ⟨(hasKey_iff_mem new p.1).mpr (List.mem_map_of_mem Prod.fst hmem),
      by simpa using hfilt⟩
  · rintro ⟨hn, ho⟩
    rcases List.mem_map.mp ((hasKey_iff_mem new k).mp hn) with ⟨p, hmem, hfst⟩
    exact ⟨p, ⟨hmem, by simp [hfst, ho]⟩, hfst⟩

theorem mem_updates_keys_iff {α : Type} [DecidableEq α] (old new : Doc α)
    (hold : nodupKeys old) (k : String) :
    k ∈ (find_differences old new).updates.map Prod.fst ↔
      (∃ v w, dlookup old k = some v ∧ dlookup new k = some w ∧ v ≠ w) := by
  rw [← hasKey_iff_mem, hasKey_eq_isSome, dlookup_updates old new hold k]
  rcases hno : dlookup old k with _ | v
  · simp
  · rcases hnn : dlookup new k with _ | w
    · simp
    · by_cases hvw : v ≠ w
      · simp only [if_pos hvw, Option.isSome_some, true_iff]
        exact ⟨v, w, rfl, rfl, hvw⟩
      · simp only [if_neg hvw, Option.isSome_none, Bool.false_eq_true, false_iff]
        rintro ⟨v', w', h1, h2, h3⟩
        injection h1 with h1
        injection h2 with h2
        exact absurd (h1 ▸ h2 ▸ h3) hvw

theorem dlookup_copy_filter {α : Type} (s2 : Doc α) (dels : List String)
    (old : Doc α) (k : String) :
    dlookup (old.filter
        (fun p => ! hasKey s2 p.1 && ! strListContains dels p.1)) k =
      if ! hasKey s2 k && ! strListContains dels k then dlookup old k
      else none :=
  dlookup_filter_key (fun s => ! hasKey s2 s && ! strListContains dels s) old k

theorem foldl_add_skip {α : Type} (l : Doc α) :
    ∀ acc : Doc α,
    l.foldl (fun nj a => if a.1 ≠ "" then dinsert nj a.1 a.2 else nj) acc =
      (l.filter (fun a => a.1 ≠ "")).foldl
        (fun nj a => if a.1 ≠ "" then dinsert nj a.1 a.2 else nj) acc := by
  induction l with
  | nil => intro acc; rfl
  | cons a rest ih =>
    intro acc
    by_cases h : a.1 = ""
    · have h' : ¬ (a.1 ≠ "") := by simpa using h
      rw [List.foldl_cons, if_neg h', List.filter_cons, if_neg (by simpa using h')]
      exact ih acc
    · rw [List.foldl_cons, if_pos h, List.filter_cons,
        if_pos (by simpa using h), List.foldl_cons, if_pos h]
      exact ih (dinsert acc a.1 a.2)

theorem foldl_upd_skip {α : Type} (l : List (String × α × α)) :
    ∀ acc : Doc α,
    l.foldl (fun nj u => if u.1 ≠ "" then dinsert nj u.1 u.2.2 else nj) acc =
      (l.filter (fun u => u.1 ≠ "")).foldl
        (fun nj u => if u.1 ≠ "" then dinsert nj u.1 u.2.2 else nj) acc := by
  induction l with
  | nil => intro acc; rfl
  | cons u rest ih =>
    intro acc
    by_cases h : u.1 = ""
    · have h' : ¬ (u.1 ≠ "") := by simpa using h
      rw [List.foldl_cons, if_neg h', List.filter_cons, if_neg (by simpa using h')]
      exact ih acc
    · rw [List.foldl_cons, if_pos h, List.filter_cons,
        if_pos (by simpa using h), List.foldl_cons, if_pos h]
      exact ih (dinsert acc u.1 u.2.2)

/-! ## Claim theorems for the configuration diff/patch engine -/

/-- **C1**: for every pair of configuration documents whose keys are all
non-empty strings, applying the computed diff to the old document reproduces
the new document: `do_config_changes(old, find_differences(old, new))`
equals `new` as a Python dict (same key set, same values). -/
theorem diff_patch_round_trip {α : Type} [DecidableEq α] (old new : Doc α)
    (hold : nodupKeys old) (hnew : nodupKeys new)
    (hko : ∀ p ∈ old, p.1 ≠ "") (hkn : ∀ p ∈ new, p.1 ≠ "") :
    dictEquiv (do_config_changes old (find_differences old new)) new := by
  intro k
  have hs2 := dlookup_appliedChanges old new hold hnew hko hkn k
  have hdel : (strListContains (find_differences old new).deletions k = true) ↔
      (hasKey old k = true ∧ hasKey new k = false) :=
    (strListContains_iff _ _).trans (mem_deletions_iff old new k)
  rw [show do_config_changes old (find_differences old new) =
      appliedChanges (find_differences old new) ++ old.filter
        (fun p => ! hasKey (appliedChanges (find_differences old new)) p.1 &&
          ! strListContains (find_differences old new).deletions p.1) from rfl]
  rw [dlookup_append, dlookup_copy_filter]
  rcases hno : dlookup old k with _ | v <;> rcases hnn : dlookup new k with _ | w
  · rw [hno, hnn] at hs2
    simp only [] at hs2
    rw [hs2]
    exact ite_self none
  · rw [hno, hnn] at hs2
    simp only [] at hs2
    rw [hs2]
  · rw [hno, hnn] at hs2
    simp only [] at hs2
    have hcont : strListContains (find_differences old new).deletions k = true :=
      hdel.mpr ⟨by rw [hasKey_eq_isSome, hno]; rfl,
        by rw [hasKey_eq_isSome, hnn]; rfl⟩
    rw [hs2, hcont]
    simp
  · rw [hno, hnn] at hs2
    by_cases hvw : v ≠ w
    · simp only [if_pos hvw] at hs2
      rw [hs2]
    · have hvw' : v = w := not_not.mp hvw
      simp only [if_neg hvw] at hs2
      have hcont : strListContains (find_differences old new).deletions k = false := by
        cases hc : strListContains (find_differences old new).deletions k
        · rfl
        · have h2 := (hdel.mp hc).2
          rw [hasKey_eq_isSome, hnn] at h2
          cases h2
      rw [hs2, hcont, hasKey_eq_isSome, hs2]
      simp [hno, hvw']

theorem diff_patch_round_trip_witness :
    dictEquiv
      (do_config_changes [("a", (1 : Int)), ("b", 2)]
        (find_differences [("a", (1 : Int)), ("b", 2)] [("b", 3), ("c", 4)]))
      [("b", (3 : Int)), ("c", 4)] :=
  diff_patch_round_trip [("a", (1 : Int)), ("b", 2)] [("b", 3), ("c", 4)]
    (by decide) (by decide) (by decide) (by decide)

/-- **C2**: `find_differences` returns exactly one addition entry
`(k, new[k])` per key of `new` absent from `old`, exactly the keys of `old`
absent from `new` as deletions, and exactly one update entry
`(k, old[k], new[k])` per shared key with unequal values; and on the
spec's example documents it returns additions `[("c", 4)]`, deletions
`["a"]`, updates `[("b", 2, 3)]`. -/
theorem find_differences_spec {α : Type} [DecidableEq α] (old new : Doc α)
    (hold : nodupKeys old) (hnew : nodupKeys new) :
    (∀ k v, (k, v) ∈ (find_differences old new).additions ↔
      (hasKey old k = false ∧ dlookup new k = some v)) ∧
    ((find_differences old new).additions.map Prod.fst).Nodup ∧
    (∀ k, k ∈ (find_differences old new).deletions ↔
      (hasKey old k = true ∧ hasKey new k = false)) ∧
    (find_differences old new).deletions.Nodup ∧
    (∀ k f t, (k, f, t) ∈ (find_differences old new).updates ↔
      (dlookup old k = some f ∧ dlookup new k = some t ∧ f ≠ t)) ∧
    ((find_differences old new).updates.map Prod.fst).Nodup ∧
    find_differences [("a", (1 : Int)), ("b", 2)] [("b", 3), ("c", 4)] =
      ⟨[("c", 4)], ["a"], [("b", 2, 3)]⟩ :=
  ⟨fun k v => mem_additions_iff old new hnew k v,
   hnew.sublist (additions_keys_sublist old new),
   fun k => mem_deletions_iff old new k,
   deletions_nodup old new hold,
   fun k f t => mem_updates_iff old new hold k f t,
   hold.sublist (updates_keys_sublist old new),
   rfl⟩

theorem find_differences_spec_witness :
    find_differences [("a", (1 : Int)), ("b", 2)] [("b", 3), ("c", 4)] =
      ⟨[("c", 4)], ["a"], [("b", 2, 3)]⟩ :=
  (find_differences_spec [("a", (1 : Int)), ("b", 2)] [("b", 3), ("c", 4)]
    (by decide) (by decide)).2.2.2.2.2.2

/-- **C3**: the key-sets of additions, deletions and updates are pairwise
disjoint; their union together with the shared keys holding equal values is
exactly `keys(old) ∪ keys(new)`; a shared key with equal values appears in
none of the three lists. -/
theorem diff_keysets_partition {α : Type} [DecidableEq α] (old new : Doc α)
    (hold : nodupKeys old) (hnew : nodupKeys new) :
    (∀ k, ¬ (k ∈ (find_differences old new).additions.map Prod.fst ∧
      k ∈ (find_differences old new).deletions)) ∧
    (∀ k, ¬ (k ∈ (find_differences old new).additions.map Prod.fst ∧
      k ∈ (find_differences old new).updates.map Prod.fst)) ∧
    (∀ k, ¬ (k ∈ (find_differences old new).deletions ∧
      k ∈ (find_differences old new).updates.map Prod.fst)) ∧
    (∀ k, (k ∈ (find_differences old new).additions.map Prod.fst ∨
      k ∈ (find_differences old new).deletions ∨
      k ∈ (find_differences old new).updates.map Prod.fst ∨
      (hasKey old k = true ∧ hasKey new k = true ∧
        dlookup old k = dlookup new k)) ↔
      (hasKey old k = true ∨ hasKey new k = true)) ∧
    (∀ k, hasKey old k = true → hasKey new k = true →
      dlookup old k = dlookup new k →
      ¬ k ∈ (find_differences old new).additions.map Prod.fst ∧
      ¬ k ∈ (find_differences old new).deletions ∧
      ¬ k ∈ (find_differences old new).updates.map Prod.fst) := by
  refine ⟨?_, ?_, ?_, ?_, ?_⟩
  · rintro k ⟨ha, hd⟩
    have h1 := ((mem_additions_keys_iff old new k).mp ha).2
    have h2 := ((mem_deletions_iff old new k).mp hd).1
    rw [h1] at h2
    cases h2
  · rintro k ⟨ha, hu⟩
    have h1 := ((mem_additions_keys_iff old new k).mp ha).2
    obtain ⟨v, w, hv, hw, -⟩ := (mem_updates_keys_iff old new hold k).mp hu
    rw [hasKey_eq_isSome, hv] at h1
    cases h1
  · rintro k ⟨hd, hu⟩
    have h1 := ((mem_deletions_iff old new k).mp hd).2
    obtain ⟨v, w, hv, hw, -⟩ := (mem_updates_keys_iff old new hold k).mp hu
    rw [hasKey_eq_isSome, hw] at h1
    cases h1
  · intro k
    constructor
    · rintro (h | h | h | h)
      · exact Or.inr ((mem_additions_keys_iff old new k).mp h).1
      · exact Or.inl ((mem_deletions_iff old new k).mp h).1
      · obtain ⟨v, w, hv, hw, -⟩ := (mem_updates_keys_iff old new hold k).mp h
        exact Or.inl (by rw [hasKey_eq_isSome, hv]; rfl)
      · exact Or.inl h.1
    · intro h
      rcases hno : dlookup old k with _ | v <;> rcases hnn : dlookup new k with _ | w
      · rcases h with h | h
        · rw [hasKey_eq_isSome, hno] at h
          simp at h
        · rw [hasKey_eq_isSome, hnn] at h
          simp at h
      · exact Or.inl ((mem_additions_keys_iff old new k).mpr
          ⟨by rw [hasKey_eq_isSome, hnn]; rfl,
           by rw [hasKey_eq_isSome, hno]; rfl⟩)
      · exact Or.inr (Or.inl ((mem_deletions_iff old new k).mpr
          ⟨by rw [hasKey_eq_isSome, hno]; rfl,
           by rw [hasKey_eq_isSome, hnn]; rfl⟩))
      · by_cases hvw : v = w
        · exact Or.inr (Or.inr (Or.inr
            ⟨by rw [hasKey_eq_isSome, hno]; rfl,
             by rw [hasKey_eq_isSome, hnn]; rfl,
             by rw [hvw]⟩))
        · exact Or.inr (Or.inr (Or.inl
            ((mem_updates_keys_iff old new hold k).mpr ⟨v, w, hno, hnn, hvw⟩)))
  · intro k ho hn heq
    refine ⟨?_, ?_, ?_⟩
    · intro h
      have h2 := ((mem_additions_keys_iff old new k).mp h).2
      rw [ho] at h2
      cases h2
    · intro h
      have h2 := ((mem_deletions_iff old new k).mp h).2
      rw [hn] at h2
      cases h2
    · intro h
      obtain ⟨v, w, hv, hw, hne⟩ := (mem_updates_keys_iff old new hold k).mp h
      rw [hv, hw] at heq
      injection heq with heq
      exact hne heq

theorem diff_keysets_partition_witness :
    ¬ ("c" ∈ (find_differences [("a", (1 : Int)), ("b", 2)]
        [("b", 3), ("c", 4)]).additions.map Prod.fst ∧
      "c" ∈ (find_differences [("a", (1 : Int)), ("b", 2)]
        [("b", 3), ("c", 4)]).deletions) :=
  (diff_keysets_partition [("a", (1 : Int)), ("b", 2)] [("b", 3), ("c", 4)]
    (by decide) (by decide)).1 "c"

/-- **C8**: `do_config_changes` silently skips additions and updates with a
falsy (empty) key — dropping those entries beforehand changes nothing — and
then copies every key of the old document that is neither already present in
the accumulated result (`appliedChanges`) nor listed in the deletions, so
deletions are implicit and written additions/updates take precedence over
old values. -/
theorem do_config_changes_lenient {α : Type} (old : Doc α) (d : Diff α) :
    (do_config_changes old d = do_config_changes old
      ⟨d.additions.filter (fun a => a.1 ≠ ""), d.deletions,
       d.updates.filter (fun u => u.1 ≠ "")⟩) ∧
    (∀ k, hasKey (appliedChanges d) k = true →
      dlookup (do_config_changes old d) k = dlookup (appliedChanges d) k) ∧
    (∀ k, hasKey (appliedChanges d) k = false →
      strListContains d.deletions k = false →
      dlookup (do_config_changes old d) k = dlookup old k) ∧
    (∀ k, hasKey (appliedChanges d) k = false →
      strListContains d.deletions k = true →
      dlookup (do_config_changes old d) k = none) := by
  have hap : appliedChanges
      (⟨d.additions.filter (fun a => a.1 ≠ ""), d.deletions,
        d.updates.filter (fun u => u.1 ≠ "")⟩ : Diff α) = appliedChanges d := by
    show (d.updates.filter (fun u => u.1 ≠ "")).foldl
        (fun nj u => if u.1 ≠ "" then dinsert nj u.1 u.2.2 else nj)
        ((d.additions.filter (fun a => a.1 ≠ "")).foldl
          (fun nj a => if a.1 ≠ "" then dinsert nj a.1 a.2 else nj) []) =
      d.updates.foldl (fun nj u => if u.1 ≠ "" then dinsert nj u.1 u.2.2 else nj)
        (d.additions.foldl
          (fun nj a => if a.1 ≠ "" then dinsert nj a.1 a.2 else nj) [])
    rw [← foldl_add_skip, ← foldl_upd_skip]
  refine ⟨?_, ?_, ?_, ?_⟩
  · rw [show do_config_changes old d = appliedChanges d ++ old.filter
        (fun p => ! hasKey (appliedChanges d) p.1 &&
          ! strListContains d.deletions p.1) from rfl]
    rw [show do_config_changes old
        ⟨d.additions.filter (fun a => a.1 ≠ ""), d.deletions,
         d.updates.filter (fun u => u.1 ≠ "")⟩ =
      appliedChanges (⟨d.additions.filter (fun a => a.1 ≠ ""), d.deletions,
        d.updates.filter (fun u => u.1 ≠ "")⟩ : Diff α) ++ old.filter
        (fun p => ! hasKey (appliedChanges
            (⟨d.additions.filter (fun a => a.1 ≠ ""), d.deletions,
              d.updates.filter (fun u => u.1 ≠ "")⟩ : Diff α)) p.1 &&
          ! strListContains d.deletions p.1) from rfl]
    rw [hap]
  · intro k hk
    rw [hasKey_eq_isSome] at hk
    obtain ⟨v, hv⟩ := Option.isSome_iff_exists.mp hk
    rw [show do_config_changes old d = appliedChanges d ++ old.filter
        (fun p => ! hasKey (appliedChanges d) p.1 &&
          ! strListContains d.deletions p.1) from rfl]
    rw [dlookup_append, hv]
  · intro k hk hdel
    rw [show do_config_changes old d = appliedChanges d ++ old.filter
        (fun p => ! hasKey (appliedChanges d) p.1 &&
          ! strListContains d.deletions p.1) from rfl]
    rw [dlookup_append, dlookup_copy_filter]
    rw [hasKey_eq_isSome] at hk
    have hnone : dlookup (appliedChanges d) k = none :=
      Option.not_isSome_iff_eq_none.mp (by simp [hk])
    rw [hnone, hasKey_eq_isSome, hnone, hdel]
    simp
  · intro k hk hdel
    rw [show do_config_changes old d = appliedChanges d ++ old.filter
        (fun p => ! hasKey (appliedChanges d) p.1 &&
          ! strListContains d.deletions p.1) from rfl]
    rw [dlookup_append, dlookup_copy_filter]
    rw [hasKey_eq_isSome] at hk
    have hnone : dlookup (appliedChanges d) k = none :=
      Option.not_isSome_iff_eq_none.mp (by simp [hk])
    rw [hnone, hdel]
    simp

theorem do_config_changes_lenient_witness :
    dlookup (do_config_changes [("a", (1 : Int))]
      (⟨[("", 5)], ["z"], [("", 2, 7)]⟩ : Diff Int)) "a" =
      dlookup [("a", (1 : Int))] "a" :=
  (do_config_changes_lenient [("a", (1 : Int))]
    (⟨[("", 5)], ["z"], [("", 2, 7)]⟩ : Diff Int)).2.2.1 "a" (by decide) (by decide)

/-! ## Relationship resolution (C6) -/

theorem applyAggregation_className (agg : Aggregation) (record : ClassRecord) :
    (applyAggregation agg record).className = record.className := by
  unfold applyAggregation
  by_cases h1 : record.className = agg.target <;>
    simp only [h1, if_true, if_false, Bool.false_eq_true] <;> split <;> rfl

theorem applyAggregation_documentation (agg : Aggregation) (record : ClassRecord) :
    (applyAggregation agg record).documentation = record.documentation := by
  unfold applyAggregation
  by_cases h1 : record.className = agg.target <;>
    simp only [h1, if_true, if_false, Bool.false_eq_true] <;> split <;> rfl

theorem applyAggregation_isRoot (agg : Aggregation) (record : ClassRecord) :
    (applyAggregation agg record).isRoot = record.isRoot := by
  unfold applyAggregation
  by_cases h1 : record.className = agg.target <;>
    simp only [h1, if_true, if_false, Bool.false_eq_true] <;> split <;> rfl

theorem applyAggregation_parameters (agg : Aggregation) (record : ClassRecord) :
    (applyAggregation agg record).parameters =
      record.parameters ++
        (if record.className = agg.target then [⟨agg.source, "class"⟩] else []) := by
  unfold applyAggregation
  by_cases h1 : record.className = agg.target <;>
    simp only [h1, if_true, if_false, Bool.false_eq_true] <;> split <;> simp

theorem applyAggregation_min (agg : Aggregation) (record : ClassRecord) :
    (applyAggregation agg record).min =
      if record.className = agg.source then some agg.min else record.min := by
  simp only [applyAggregation]
  split_ifs <;> simp_all

theorem applyAggregation_max (agg : Aggregation) (record : ClassRecord) :
    (applyAggregation agg record).max =
      if record.className = agg.source then some agg.max else record.max := by
  simp only [applyAggregation]
  split_ifs <;> simp_all

theorem foldl_map_comm {β γ : Type} (g : β → γ → γ) (l : List β) :
    ∀ xs : List γ,
    l.foldl (fun cs b => cs.map (g b)) xs =
      xs.map (fun x => l.foldl (fun r b => g b r) x) := by
  induction l with
  | nil => intro xs; simp
  | cons b rest ih =>
    intro xs
    rw [List.foldl_cons, ih (xs.map (g b)), List.map_map]
    rfl

theorem foldl_applyAggregation (aggregations : List Aggregation) :
    ∀ record : ClassRecord,
    aggregations.foldl (fun r agg => applyAggregation agg r) record =
      { record with
        parameters := record.parameters ++
          (aggregations.filter (fun a => record.className = a.target)).map
            (fun a => (⟨a.source, "class"⟩ : ParameterRecord)),
        min := match (aggregations.filter
            (fun a => record.className = a.source)).getLast? with
          | some a => some a.min
          | none => record.min,
        max := match (aggregations.filter
            (fun a => record.className = a.source)).getLast? with
          | some a => some a.max
          | none => record.max } := by
  induction aggregations with
  | nil =>
    intro record
    cases record
    simp
  | cons agg rest ih =>
    intro record
    rw [List.foldl_cons, ih (applyAggregation agg record),
      applyAggregation_className, applyAggregation_documentation,
      applyAggregation_isRoot, applyAggregation_parameters,
      applyAggregation_min, applyAggregation_max,
      List.filter_cons, List.filter_cons]
    simp only [decide_eq_true_eq, ClassRecord.mk.injEq]
    by_cases ht : record.className = agg.target <;>
      by_cases hs : record.className = agg.source
    · simp only [if_pos ht, if_pos hs]
      refine ⟨trivial, trivial, trivial, by simp, ?_, ?_⟩ <;>
        rcases hfl : rest.filter
          (fun a => decide (record.className = a.source)) with _ | ⟨b, l⟩ <;>
        rw [hfl] <;> rfl
    · simp only [if_pos ht, if_neg hs]
      exact ⟨trivial, trivial, trivial, by simp, trivial, trivial⟩
    · simp only [if_neg ht, if_pos hs]
      refine ⟨trivial, trivial, trivial, by simp, ?_, ?_⟩ <;>
        rcases hfl : rest.filter
          (fun a => decide (record.className = a.source)) with _ | ⟨b, l⟩ <;>
        rw [hfl] <;> rfl
    · simp only [if_neg ht, if_neg hs]
      exact ⟨trivial, trivial, trivial, by simp, trivial, trivial⟩

/-- **C6**: relationship resolution rewrites each class record in place —
the records come back in class-declaration order, not re-sorted — appending
to its parameters one class-typed parameter `{name: source, type: "class"}`
per aggregation edge whose target is the class (in aggregation-declaration
order, after all pre-existing primitive attributes), and setting its
`min`/`max` from the last edge whose source is the class (last edge wins);
absent such an edge `min`/`max` are unchanged. -/
theorem resolve_relationships_spec (aggregations : List Aggregation)
    (classes : List ClassRecord) (i : Nat) :
    (resolve_relationships aggregations classes)[i]? =
      classes[i]?.map (fun record =>
        { record with
          parameters := record.parameters ++
            (aggregations.filter (fun a => record.className = a.target)).map
              (fun a => (⟨a.source, "class"⟩ : ParameterRecord)),
          min := match (aggregations.filter
              (fun a => record.className = a.source)).getLast? with
            | some a => some a.min
            | none => record.min,
          max := match (aggregations.filter
              (fun a => record.className = a.source)).getLast? with
            | some a => some a.max
            | none => record.max }) := by
  rw [show resolve_relationships aggregations classes =
      classes.map (fun record => aggregations.foldl
        (fun r agg => applyAggregation agg r) record) from
    foldl_map_comm applyAggregation aggregations classes]
  rw [List.getElem?_map]
  rcases hcl : classes[i]? with _ | record
  · rfl
  · exact congrArg some (foldl_applyAggregation aggregations record)

/-! ## Multiplicity splitting (C5) -/

theorem hasDots_append_sep (post : List Char) :
    ∀ pre : List Char, hasDots (pre ++ '.' :: '.' :: post) = true := by
  intro pre
  induction pre with
  | nil => simp [hasDots]
  | cons c pre' ih =>
    cases pre' with
    | nil =>
      show hasDots (c :: '.' :: ('.' :: post)) = true
      unfold hasDots
      split
      · rfl
      · exact ih
    | cons d pre'' =>
      show hasDots (c :: d :: (pre'' ++ '.' :: '.' :: post)) = true
      unfold hasDots
      split
      · rfl
      · exact ih

theorem splitDots_no_dots : ∀ l : List Char, hasDots l = false →
    splitDots l = [l] := by
  intro l
  induction l with
  | nil => intro _; rfl
  | cons c rest ih =>
    cases rest with
    | nil => intro _; rfl
    | cons d rest' =>
      intro h
      unfold hasDots at h
      unfold splitDots
      split
      · next hc => rw [if_pos hc] at h; cases h
      · next hc =>
        rw [if_neg hc] at h
        rw [ih h]
    -- the match on `[d :: rest']` reduces to the single-group result

theorem splitDots_sep (post : List Char) :
    splitDots ('.' :: '.' :: post) = [] :: splitDots post := by
  rw [splitDots, if_pos ⟨rfl, rfl⟩]

theorem splitDots_append : ∀ pre post : List Char,
    hasDots (pre ++ ['.']) = false →
    splitDots (pre ++ '.' :: '.' :: post) = pre :: splitDots post := by
  intro pre
  induction pre with
  | nil => intro post _; rfl
  | cons c pre' ih =>
    intro post h
    rw [List.cons_append] at h
    cases pre' with
    | nil =>
      rw [List.nil_append] at h
      have hc : ¬ (c = '.' ∧ '.' = '.') := by
        intro hand
        unfold hasDots at h
        rw [if_pos hand] at h
        cases h
      show splitDots (c :: '.' :: ('.' :: post)) = [c] :: splitDots post
      rw [splitDots, if_neg hc, splitDots_sep]
    | cons d pre'' =>
      rw [List.cons_append] at h
      have hc : ¬ (c = '.' ∧ d = '.') := by
        intro hand
        unfold hasDots at h
        rw [if_pos hand] at h
        cases h
      have htail : hasDots ((d :: pre'') ++ ['.']) = false := by
        unfold hasDots at h
        rw [if_neg hc] at h
        exact h
      have hsplit := ih post htail
      rw [List.cons_append] at hsplit
      show splitDots (c :: d :: (pre'' ++ '.' :: '.' :: post)) =
        (c :: d :: pre'') :: splitDots post
      rw [splitDots, if_neg hc, hsplit]

/-- **C5**: the parser splits `sourceMultiplicity` on the literal separator
`..` into `min` (the part before the separator) and `max` (the part after);
when the separator is absent the whole string becomes both `min` and `max`;
`"1..*"` yields `min="1"`, `max="*"` and bare `"1"` yields
`min="1"`, `max="1"`.  (`pre`/`post` range over separator-free
decompositions, so "before" and "after" are well defined.) -/
theorem multiplicity_split_spec :
    (∀ pre post : List Char, hasDots (pre ++ ['.']) = false →
      hasDots post = false →
      multMin (pre ++ '.' :: '.' :: post) = pre ∧
      multMax (pre ++ '.' :: '.' :: post) = post) ∧
    (∀ m : List Char, hasDots m = false →
      multMin m = m ∧ multMax m = m) ∧
    (multMin "1..*".data = "1".data ∧ multMax "1..*".data = "*".data ∧
      multMin "1".data = "1".data ∧ multMax "1".data = "1".data) := by
  refine ⟨?_, ?_, ⟨by decide, by decide, by decide, by decide⟩⟩
  · intro pre post hpre hpost
    have hd : hasDots (pre ++ '.' :: '.' :: post) = true :=
      hasDots_append_sep post pre
    have hs : splitDots (pre ++ '.' :: '.' :: post) = pre :: splitDots post :=
      splitDots_append pre post hpre
    have hp : splitDots post = [post] := splitDots_no_dots post hpost
    constructor
    · unfold multMin
      rw [if_pos hd, hs]
      rfl
    · unfold multMax
      rw [if_pos hd, hs, hp]
      rfl
  · intro m hm
    have hm' : ¬ (hasDots m = true) := by simp [hm]
    exact ⟨by unfold multMin; rw [if_neg hm'],
      by unfold multMax; rw [if_neg hm']⟩

theorem multiplicity_split_spec_witness :
    multMin (['1'] ++ '.' :: '.' :: ['*']) = ['1'] ∧
    multMax (['1'] ++ '.' :: '.' :: ['*']) = ['*'] :=
  multiplicity_split_spec.1 ['1'] ['*'] (by decide) (by decide)

/-! ## Root lookup and the builder (C9, C10) -/

theorem hasKey_append {α : Type} (d₁ d₂ : Doc α) (k : String) :
    hasKey (d₁ ++ d₂) k = (hasKey d₁ k || hasKey d₂ k) := by
  induction d₁ with
  | nil => simp [hasKey]
  | cons p rest ih =>
    simp only [List.cons_append, hasKey]
    split <;> simp [ih]

theorem builderData_foldl (json_data : List ClassRecord) :
    ∀ acc : Doc ClassRecord,
    (json_data.map ClassRecord.className).Nodup →
    (∀ c ∈ json_data, hasKey acc c.className = false) →
    json_data.foldl (fun d item => dinsert d item.className item) acc =
      acc ++ json_data.map (fun c => (c.className, c)) := by
  induction json_data with
  | nil => intro acc _ _; simp
  | cons c rest ih =>
    intro acc hnd hfresh
    have hc : hasKey acc c.className = false :=
      hfresh c (List.mem_cons_self c rest)
    have hnotin : c.className ∉ rest.map ClassRecord.className :=
      (List.nodup_cons.mp hnd).1
    rw [List.foldl_cons, show dinsert acc c.className c =
        acc ++ [(c.className, c)] from by unfold dinsert; rw [hc]; rfl]
    rw [ih (acc ++ [(c.className, c)]) (List.nodup_cons.mp hnd).2 ?_]
    · simp
    · intro c' hc'
      rw [hasKey_append]
      have h1 : hasKey acc c'.className = false :=
        hfresh c' (List.mem_cons_of_mem _ hc')
      have h2 : hasKey [(c.className, c)] c'.className = false := by
        have hne : ¬ c.className = c'.className := by
          intro heq
          exact hnotin (by
            rw [heq]
            exact List.mem_map_of_mem ClassRecord.className hc')
        simp [hasKey, hne]
      rw [h1, h2]
      rfl

theorem builderData_eq (json_data : List ClassRecord)
    (h : (json_data.map ClassRecord.className).Nodup) :
    builderData json_data = json_data.map (fun c => (c.className, c)) := by
  rw [show builderData json_data = json_data.foldl
      (fun d item => dinsert d item.className item) [] from rfl,
    builderData_foldl json_data [] h (fun c _ => rfl)]
  rfl

theorem find_root_eq (json_data : List ClassRecord)
    (h : (json_data.map ClassRecord.className).Nodup) :
    find_root (builderData json_data) =
      json_data.find? (fun c => c.isRoot) := by
  rw [show find_root (builderData json_data) =
      ((builderData json_data).map Prod.snd).find? (fun item => item.isRoot)
      from rfl, builderData_eq json_data h, List.map_map]
  rw [show (Prod.snd ∘ fun c : ClassRecord => (c.className, c)) = id from rfl,
    List.map_id]

theorem build_component_obj_name (data : Doc ClassRecord) (fuel : Nat)
    (class_name : String) (t : XMLComposite)
    (h : build_component_obj data fuel class_name = some t) :
    t.name = class_name := by
  cases fuel with
  | zero => cases h
  | succ fuel =>
    rw [build_component_obj] at h
    rcases hl : dlookup data class_name with _ | record
    · rw [hl] at h; cases h
    · rw [hl] at h
      rcases hcs : build_children
          (fun n => build_component_obj data fuel n) record.parameters
        with _ | cs
      · simp only [hcs] at h
        cases h
      · simp only [hcs] at h
        cases h
        rfl

/-- **C9** counterexample: with two records flagged as root, `_find_root`
does not return a null root — it returns the first flagged record. -/
theorem find_root_ambiguous_counterexample :
    (([⟨"A", "", true, [], none, none⟩, ⟨"B", "", true, [], none, none⟩] :
        List ClassRecord).countP (fun c => c.isRoot) = 2) ∧
    find_root (builderData
        [⟨"A", "", true, [], none, none⟩, ⟨"B", "", true, [], none, none⟩]) =
      some ⟨"A", "", true, [], none, none⟩ ∧
    find_root (builderData
        [⟨"A", "", true, [], none, none⟩, ⟨"B", "", true, [], none, none⟩]) ≠
      none := by
  refine ⟨by decide, by decide, ?_⟩
  intro h
  cases h.symm.trans (show find_root (builderData
      [⟨"A", "", true, [], none, none⟩, ⟨"B", "", true, [], none, none⟩]) =
    some ⟨"A", "", true, [], none, none⟩ from by decide)

/-- **C9** (amended): root lookup never raises; it returns a null
(`None`) root exactly when no record is flagged as root — with several
flagged records it silently returns the first one instead of null. -/
theorem find_root_silent_spec (json_data : List ClassRecord)
    (h : (json_data.map ClassRecord.className).Nodup) :
    (find_root (builderData json_data) = none ↔
      ∀ c ∈ json_data, c.isRoot = false) ∧
    (∀ r, json_data.find? (fun c => c.isRoot) = some r →
      find_root (builderData json_data) = some r) := by
  rw [find_root_eq json_data h]
  constructor
  · rw [List.find?_eq_none]
    constructor
    · intro hall c hc
      have := hall c hc
      simpa using this
    · intro hall c hc
      simp [hall c hc]
  · intro r hr
    exact hr

theorem find_root_silent_spec_witness :
    find_root (builderData [⟨"A", "", false, [], none, none⟩]) = none :=
  (find_root_silent_spec [⟨"A", "", false, [], none, none⟩]
    (by decide)).1.mpr (by decide)

/-- **C10**: with more than one record flagged as root, the builder selects
the first flagged record in class-declaration (dict insertion) order, and
`build` renders the component constructed from that record's class. -/
theorem build_first_root (json_data : List ClassRecord)
    (h : (json_data.map ClassRecord.className).Nodup)
    (hmulti : 2 ≤ json_data.countP (fun c => c.isRoot))
    (r : ClassRecord) (hr : json_data.find? (fun c => c.isRoot) = some r)
    (fuel : Nat) :
    find_root (builderData json_data) = some r ∧
    XMLBuilder.build json_data fuel =
      (match build_component_obj (builderData json_data) fuel r.className with
       | none => none
       | some c => some (c.to_xml 0)) ∧
    (∀ t, build_component_obj (builderData json_data) fuel r.className =
        some t → t.name = r.className) := by
  have hfr : find_root (builderData json_data) = some r :=
    (find_root_eq json_data h).symm ▸ hr
  refine ⟨hfr, ?_, fun t ht => build_component_obj_name _ fuel _ t ht⟩
  rw [show XMLBuilder.build json_data fuel =
      (match find_root (builderData json_data) with
       | none => none
       | some root =>
         match build_component_obj (builderData json_data) fuel root.className
           with
         | none => none
         | some c => some (c.to_xml 0)) from rfl, hfr]

theorem build_first_root_witness :
    find_root (builderData
        [⟨"A", "", true, [], none, none⟩, ⟨"B", "", true, [], none, none⟩]) =
      some ⟨"A", "", true, [], none, none⟩ :=
  (build_first_root
    [⟨"A", "", true, [], none, none⟩, ⟨"B", "", true, [], none, none⟩]
    (by decide) (by decide) ⟨"A", "", true, [], none, none⟩ (by decide) 2).1

/-! ## The three rendering shapes and the line structure (C7) -/

theorem joinLines_cons (x : String) (l : List String) (h : l ≠ []) :
    joinLines (x :: l) = x ++ "\n" ++ joinLines l := by
  cases l with
  | nil => cases h rfl
  | cons y ys => rfl

theorem joinLines_append (l₁ l₂ : List String) (h₂ : l₂ ≠ []) :
    l₁ ≠ [] →
    joinLines (l₁ ++ l₂) = joinLines l₁ ++ "\n" ++ joinLines l₂ := by
  induction l₁ with
  | nil => intro h₁; cases h₁ rfl
  | cons x xs ih =>
    intro _
    cases xs with
    | nil =>
      rw [List.singleton_append, joinLines_cons x l₂ h₂]
      rfl
    | cons y ys =>
      rw [List.cons_append, joinLines_cons x ((y :: ys) ++ l₂) (by simp),
        ih (by simp), joinLines_cons x (y :: ys) (by simp)]
      simp [String.append_assoc]

theorem to_xml_list_map : ∀ (cs : List XMLComposite) (i : Nat),
    XMLComposite.to_xml_list cs i = cs.map (fun c => XMLComposite.to_xml c i)
  | [], _ => rfl
  | c :: cs, i => by
    rw [XMLComposite.to_xml_list, to_xml_list_map cs i, List.map_cons]

theorem renderLines_ne_nil (t : XMLComposite) (i : Nat) :
    renderLines t i ≠ [] := by
  cases t with
  | node n av cs =>
    rw [renderLines]
    split
    · simp
    · split <;> simp

mutual

theorem to_xml_eq_joinLines : ∀ (t : XMLComposite) (i : Nat),
    XMLComposite.to_xml t i = joinLines (renderLines t i)
  | .node name av children, i => by
    rw [XMLComposite.to_xml, renderLines]
    by_cases hcs : children.isEmpty = false
    · rw [if_pos hcs, if_pos hcs,
        joinLines_cons _ _ (by simp), joinLines_cons _ _ (by simp),
        to_xml_list_eq_joinLines children (i + 1) _ (by simp)]
    · rw [if_neg hcs, if_neg hcs]
      by_cases hav : truthyOpt av = true
      · rw [if_pos hav, if_pos hav]
        rfl
      · rw [if_neg hav, if_neg hav]
        show _ = joinLines [_, _]
        simp [joinLines, String.append_assoc]

theorem to_xml_list_eq_joinLines :
    ∀ (cs : List XMLComposite) (i : Nat) (suffix : List String),
    suffix ≠ [] →
    joinLines (XMLComposite.to_xml_list cs i ++ suffix) =
      joinLines (renderLinesList cs i ++ suffix)
  | [], i, suffix, _ => rfl
  | c :: cs, i, suffix, h => by
    rw [XMLComposite.to_xml_list, renderLinesList, List.cons_append,
      joinLines_cons _ _ (by
        intro hh
        rcases List.append_eq_nil.mp hh with ⟨-, h2⟩
        exact h h2),
      to_xml_eq_joinLines c i, to_xml_list_eq_joinLines cs i suffix h,
      List.append_assoc,
      joinLines_append (renderLines c i) _ (by
        intro hh
        rcases List.append_eq_nil.mp hh with ⟨-, h2⟩
        exact h h2) (renderLines_ne_nil c i)]

end

theorem splitNl_no_nl : ∀ l : List Char, (∀ c ∈ l, c ≠ '\n') →
    splitNl l = [l] := by
  intro l
  induction l with
  | nil => intro _; rfl
  | cons c rest ih =>
    intro h
    have hc : ¬ c = '\n' := h c (List.mem_cons_self c rest)
    rw [splitNl, if_neg hc, ih (fun c' hc' => h c' (List.mem_cons_of_mem _ hc'))]

theorem splitNl_append (post : List Char) : ∀ pre : List Char,
    (∀ c ∈ pre, c ≠ '\n') →
    splitNl (pre ++ '\n' :: post) = pre :: splitNl post := by
  intro pre
  induction pre with
  | nil =>
    intro _
    rw [List.nil_append, splitNl, if_pos rfl]
  | cons c pre' ih =>
    intro h
    have hc : ¬ c = '\n' := h c (List.mem_cons_self c pre')
    rw [List.cons_append, splitNl, if_neg hc,
      ih (fun c' hc' => h c' (List.mem_cons_of_mem _ hc'))]

theorem noNlStr_chars (s : String) (h : noNlStr s = true) :
    ∀ c ∈ s.data, c ≠ '\n' := by
  intro c hc
  have := List.all_eq_true.mp h c hc
  simpa using this

theorem strLines_joinLines : ∀ ls : List String, ls ≠ [] →
    (∀ l ∈ ls, noNlStr l = true) → strLines (joinLines ls) = ls := by
  intro ls
  induction ls with
  | nil => intro h _; cases h rfl
  | cons l ls ih =>
    intro _ hnl
    cases ls with
    | nil =>
      show strLines (joinLines [l]) = [l]
      rw [show joinLines [l] = l from rfl]
      unfold strLines
      rw [splitNl_no_nl l.data (noNlStr_chars l (hnl l (by simp)))]
      rfl
    | cons l' ls' =>
      rw [joinLines_cons l (l' :: ls') (by simp)]
      unfold strLines
      rw [show (l ++ "\n" ++ joinLines (l' :: ls')).data =
          l.data ++ '\n' :: (joinLines (l' :: ls')).data from by
        rw [String.data_append, String.data_append]
        simp]
      rw [splitNl_append _ l.data (noNlStr_chars l (hnl l (by simp)))]
      rw [List.map_cons]
      have hih := ih (by simp) (fun x hx => hnl x (List.mem_cons_of_mem _ hx))
      unfold strLines at hih
      rw [hih]
      rfl

mutual

theorem renderLines_indent : ∀ (t : XMLComposite) (i : Nat) (line : String),
    line ∈ renderLines t i → ∃ rest, line = indentStr i ++ rest
  | .node name av children, i, line => by
    rw [renderLines]
    split
    · intro hmem
      rcases List.mem_cons.mp hmem with h | h
      · exact ⟨"<" ++ name ++ ">", by rw [h]; simp [String.append_assoc]⟩
      · rcases List.mem_append.mp h with h | h
        · obtain ⟨rest, hrest⟩ :=
            renderLinesList_indent children (i + 1) line h
          exact ⟨"    " ++ rest, by
            rw [hrest, show indentStr (i + 1) = indentStr i ++ "    " from rfl,
              String.append_assoc]⟩
        · rcases List.mem_singleton.mp h with h
          exact ⟨"</" ++ name ++ ">", by rw [h]; simp [String.append_assoc]⟩
    · split
      · intro hmem
        rcases List.mem_singleton.mp hmem with h
        exact ⟨"<" ++ name ++ ">" ++ av.getD "" ++ "</" ++ name ++ ">",
          by rw [h]; simp [String.append_assoc]⟩
      · intro hmem
        rcases List.mem_cons.mp hmem with h | h
        · exact ⟨"<" ++ name ++ ">", by rw [h]; simp [String.append_assoc]⟩
        · rcases List.mem_singleton.mp h with h
          exact ⟨"</" ++ name ++ ">", by rw [h]; simp [String.append_assoc]⟩

theorem renderLinesList_indent :
    ∀ (cs : List XMLComposite) (i : Nat) (line : String),
    line ∈ renderLinesList cs i → ∃ rest, line = indentStr i ++ rest
  | [], i, line => by intro h; cases h
  | c :: cs, i, line => by
    rw [renderLinesList]
    intro hmem
    rcases List.mem_append.mp hmem with h | h
    · exact renderLines_indent c i line h
    · exact renderLinesList_indent cs i line h

end

theorem noNlStr_append (a b : String) :
    noNlStr (a ++ b) = (noNlStr a && noNlStr b) := by
  unfold noNlStr
  rw [String.data_append, List.all_append]

theorem noNlStr_indentStr : ∀ n : Nat, noNlStr (indentStr n) = true
  | 0 => rfl
  | n + 1 => by
    rw [indentStr, noNlStr_append, noNlStr_indentStr n]
    rfl

mutual

theorem renderLines_noNl : ∀ (t : XMLComposite), noNlTree t = true →
    ∀ (i : Nat) (line : String), line ∈ renderLines t i →
    noNlStr line = true
  | .node name av children => by
    intro h i line hmem
    rw [noNlTree.eq_def] at h
    simp only [Bool.and_eq_true] at h
    obtain ⟨⟨hname, hav⟩, hcs⟩ := h
    rw [renderLines] at hmem
    split at hmem
    · rcases List.mem_cons.mp hmem with hl | hl
      · subst hl
        simp [noNlStr_append, noNlStr_indentStr, hname,
          show noNlStr "<" = true from rfl, show noNlStr ">" = true from rfl]
      · rcases List.mem_append.mp hl with hl | hl
        · exact renderLinesList_noNl children hcs (i + 1) line hl
        · rcases List.mem_singleton.mp hl with hl
          subst hl
          simp [noNlStr_append, noNlStr_indentStr, hname,
            show noNlStr "</" = true from rfl,
            show noNlStr ">" = true from rfl]
    · split at hmem
      · rcases List.mem_singleton.mp hmem with hl
        subst hl
        have hv : noNlStr (av.getD "") = true := by
          cases av with
          | none => rfl
          | some v => exact hav
        simp [noNlStr_append, noNlStr_indentStr, hname, hv,
          show noNlStr "<" = true from rfl, show noNlStr ">" = true from rfl,
          show noNlStr "</" = true from rfl]
      · rcases List.mem_cons.mp hmem with hl | hl
        · subst hl
          simp [noNlStr_append, noNlStr_indentStr, hname,
            show noNlStr "<" = true from rfl,
            show noNlStr ">" = true from rfl]
        · rcases List.mem_singleton.mp hl with hl
          subst hl
          simp [noNlStr_append, noNlStr_indentStr, hname,
            show noNlStr "</" = true from rfl,
            show noNlStr ">" = true from rfl]

theorem renderLinesList_noNl : ∀ (cs : List XMLComposite),
    noNlList cs = true →
    ∀ (i : Nat) (line : String), line ∈ renderLinesList cs i →
    noNlStr line = true
  | [] => by intro _ i line h; cases h
  | c :: cs => by
    intro h i line hmem
    rw [noNlList] at h
    rw [Bool.and_eq_true] at h
    obtain ⟨h1, h2⟩ := h
    rw [renderLinesList] at hmem
    rcases List.mem_append.mp hmem with hl | hl
    · exact renderLines_noNl c h1 i line hl
    · exact renderLinesList_noNl cs h2 i line hl

end

/-- **C7**: `to_xml` produces exactly one of three shapes by priority:
with children, an opening tag line, each child rendered at `indent + 1`,
then the closing tag line, newline-joined; else with a truthy attribute
value, the single line `<name>value</name>`; else the two-line empty tag
pair.  Every line of a (newline-free-named) node rendered at `indent`
carries the four-spaces-per-level prefix `indentStr indent`. -/
theorem to_xml_shape_spec (name : String) (av : Option String)
    (children : List XMLComposite) (indent : Nat) :
    (children ≠ [] →
      XMLComposite.to_xml (.node name av children) indent =
        joinLines ((indentStr indent ++ "<" ++ name ++ ">") ::
          (children.map (fun c => XMLComposite.to_xml c (indent + 1)) ++
            [indentStr indent ++ "</" ++ name ++ ">"]))) ∧
    (children = [] → ∀ v, av = some v → v ≠ "" →
      XMLComposite.to_xml (.node name av children) indent =
        indentStr indent ++ "<" ++ name ++ ">" ++ v ++ "</" ++ name ++ ">") ∧
    (children = [] → truthyOpt av = false →
      XMLComposite.to_xml (.node name av children) indent =
        indentStr indent ++ "<" ++ name ++ ">" ++ "\n" ++
          indentStr indent ++ "</" ++ name ++ ">") ∧
    (noNlTree (.node name av children) = true →
      ∀ line ∈ strLines (XMLComposite.to_xml (.node name av children) indent),
        ∃ rest, line = indentStr indent ++ rest) := by
  refine ⟨?_, ?_, ?_, ?_⟩
  · intro h
    have hne : children.isEmpty = false := by
      cases children with
      | nil => cases h rfl
      | cons a l => rfl
    rw [XMLComposite.to_xml, if_pos hne, to_xml_list_map]
  · intro h v hv hne
    subst h
    subst hv
    rw [XMLComposite.to_xml,
      if_neg (show ¬ (List.isEmpty [] = false) from by simp),
      if_pos (show truthyOpt (some v) = true from by
        show (if v = "" then false else true) = true
        rw [if_neg hne])]
    rfl
  · intro h hav
    subst h
    rw [XMLComposite.to_xml,
      if_neg (show ¬ (List.isEmpty [] = false) from by simp),
      if_neg (by rw [hav]; exact Bool.false_ne_true)]
  · intro h line hmem
    rw [to_xml_eq_joinLines,
      strLines_joinLines _ (renderLines_ne_nil _ indent)
        (fun l hl => renderLines_noNl _ h indent l hl)] at hmem
    exact renderLines_indent _ indent line hmem

theorem to_xml_shape_spec_witness :
    XMLComposite.to_xml (.node "b" (some "int") []) 0 =
      indentStr 0 ++ "<" ++ "b" ++ ">" ++ "int" ++ "</" ++ "b" ++ ">" :=
  (to_xml_shape_spec "b" (some "int") [] 0).2.1 rfl "int" rfl (by decide)

/-! ## Depth and leaf-tag structure of the rendered string (C4) -/

/-- **C4** counterexample: for the single root class `Car` with one
primitive attribute `speed:int`, the rendered string has tag-nesting
depth 2 (the leaf tag `<speed>int</speed>` nests inside `<Car>`), while the
class-reference chain depth from the root is 1 — the two quantities are not
equal as the claim states. -/
theorem render_depth_counterexample :
    XMLBuilder.build [⟨"Car", "", true, [⟨"speed", "int"⟩], none, none⟩] 3 =
      some "<Car>\n    <speed>int</speed>\n</Car>" ∧
    tagDepth "<Car>\n    <speed>int</speed>\n</Car>" = 2 ∧
    specChainDepth
      (builderData [⟨"Car", "", true, [⟨"speed", "int"⟩], none, none⟩]) 3
      "Car" = 1 ∧
    tagDepth "<Car>\n    <speed>int</speed>\n</Car>" ≠
      specChainDepth
        (builderData [⟨"Car", "", true, [⟨"speed", "int"⟩], none, none⟩]) 3
        "Car" := by
  exact ⟨by decide, by decide, by decide, by decide⟩

theorem scanSt_skip : ∀ (s : List Char), (∀ c ∈ s, c ≠ '<') →
    ∀ (rest : List Char) (st : Nat × Nat), scanSt (s ++ rest) st = scanSt rest st
  | [] => by intro _ rest st; rfl
  | [c] => by
    intro h rest st
    obtain ⟨cur, mx⟩ := st
    have hc : ¬ c = '<' := h c (by simp)
    cases rest with
    | nil =>
      rw [List.append_nil]
      simp [scanSt, hc]
    | cons d r =>
      rw [List.singleton_append, scanSt, if_neg hc]
  | c :: d :: s' => by
    intro h rest st
    obtain ⟨cur, mx⟩ := st
    have hc : ¬ c = '<' := h c (by simp)
    rw [List.cons_append, List.cons_append, scanSt, if_neg hc]
    exact scanSt_skip (d :: s') (fun x hx => h x (List.mem_cons_of_mem _ hx))
      rest (cur, mx)

theorem scanSt_openTag (n : String) (hne : n.data ≠ [])
    (hlt : ∀ c ∈ n.data, c ≠ '<') (hsl : n.data.head? ≠ some '/') :
    ∀ (tail : List Char) (cur mx : Nat),
    scanSt ('<' :: (n.data ++ '>' :: tail)) (cur, mx) =
      scanSt tail (cur + 1, max mx (cur + 1)) := by
  intro tail cur mx
  rcases hd : n.data with _ | ⟨d, nd⟩
  · cases hne hd
  · rw [hd] at hlt hsl
    have hd' : ¬ d = '/' := by
      intro hh
      exact hsl (by rw [hh]; rfl)
    rw [List.cons_append, scanSt, if_pos rfl, if_neg hd',
      show (d :: (nd ++ '>' :: tail)) = (d :: nd) ++ '>' :: tail from rfl,
      scanSt_skip (d :: nd) hlt ('>' :: tail) _,
      show ('>' :: tail : List Char) = ['>'] ++ tail from rfl,
      scanSt_skip ['>'] (by decide) tail _]

theorem scanSt_closeTag (n : String) (hlt : ∀ c ∈ n.data, c ≠ '<') :
    ∀ (tail : List Char) (cur mx : Nat),
    scanSt ('<' :: '/' :: (n.data ++ '>' :: tail)) (cur, mx) =
      scanSt tail (cur - 1, mx) := by
  intro tail cur mx
  rw [scanSt, if_pos rfl, if_pos rfl,
    scanSt_skip n.data hlt ('>' :: tail) _,
    show ('>' :: tail : List Char) = ['>'] ++ tail from rfl,
    scanSt_skip ['>'] (by decide) tail _]

theorem data_lt : ("<" : String).data = ['<'] := rfl

theorem data_gt : (">" : String).data = ['>'] := rfl

theorem data_closeTag : ("</" : String).data = ['<', '/'] := rfl

theorem data_nl : ("\n" : String).data = ['\n'] := rfl

theorem indentStr_space : ∀ i : Nat, ∀ c ∈ (indentStr i).data, c = ' ' := by
  intro i
  induction i with
  | zero => intro c hc; cases hc
  | succ n ih =>
    intro c hc
    rw [indentStr, String.data_append] at hc
    rcases List.mem_append.mp hc with h | h
    · exact ih c h
    · exact (by decide : ∀ x ∈ ("    " : String).data, x = ' ') c h

theorem tameName_unpack (n : String) (h : tameName n = true) :
    n.data ≠ [] ∧ (∀ c ∈ n.data, c ≠ '<' ∧ c ≠ '>' ∧ c ≠ '\n') ∧
      n.data.head? ≠ some '/' := by
  unfold tameName at h
  rw [Bool.and_eq_true, Bool.and_eq_true] at h
  obtain ⟨⟨h1, h2⟩, h3⟩ := h
  refine ⟨?_, ?_, ?_⟩
  · intro hh
    rw [hh] at h1
    cases h1
  · intro c hc
    have := List.all_eq_true.mp h2 c hc
    simpa using this
  · intro hh
    rw [hh] at h3
    simp at h3

theorem tameValue_unpack (v : String) (h : tameValue v = true) :
    ∀ c ∈ v.data, c ≠ '<' ∧ c ≠ '\n' := by
  intro c hc
  have := List.all_eq_true.mp h c hc
  simpa using this

theorem scanSt_char (c : Char) (hc : c ≠ '<') (rest : List Char)
    (st : Nat × Nat) : scanSt (c :: rest) st = scanSt rest st :=
  scanSt_skip [c] (fun x hx => by
    rcases List.mem_singleton.mp hx with h
    exact h ▸ hc) rest st

theorem truthyOpt_some (av : Option String) (h : truthyOpt av = true) :
    ∃ v, av = some v ∧ v ≠ "" := by
  cases av with
  | none => cases h
  | some v =>
    refine ⟨v, rfl, ?_⟩
    intro hv
    rw [show truthyOpt (some v) = (if v = "" then false else true) from rfl,
      if_pos hv] at h
    cases h

mutual

theorem scanSt_to_xml : ∀ (t : XMLComposite), tameTree t = true →
    ∀ (i : Nat) (tail : List Char) (cur mx : Nat),
    scanSt ((XMLComposite.to_xml t i).data ++ tail) (cur, mx) =
      scanSt tail (cur, max mx (cur + XMLComposite.depth t))
  | .node name av children => by
    intro h i tail cur mx
    rw [tameTree.eq_def] at h
    simp only [Bool.and_eq_true] at h
    obtain ⟨⟨hname, hav⟩, hcs⟩ := h
    obtain ⟨hne, hlt3, hsl⟩ := tameName_unpack name hname
    have hlt : ∀ c ∈ name.data, c ≠ '<' := fun c hc => (hlt3 c hc).1
    have hsp : ∀ c ∈ (indentStr i).data, c ≠ '<' := fun c hc => by
      rw [indentStr_space i c hc]
      decide
    have hdepth : XMLComposite.depth (.node name av children) =
        1 + XMLComposite.depthList children := rfl
    cases children with
    | cons c0 cs0 =>
      have hLne : XMLComposite.to_xml_list (c0 :: cs0) (i + 1) ≠ [] := by
        rw [XMLComposite.to_xml_list]
        simp
      rw [show XMLComposite.to_xml (.node name av (c0 :: cs0)) i =
          joinLines ((indentStr i ++ "<" ++ name ++ ">") ::
            (XMLComposite.to_xml_list (c0 :: cs0) (i + 1) ++
              [indentStr i ++ "</" ++ name ++ ">"])) from by
        rw [XMLComposite.to_xml,
          if_pos (show (c0 :: cs0).isEmpty = false from rfl)]]
      rw [joinLines_cons _ _ (by simp),
        joinLines_append _ _ (by simp) hLne,
        show joinLines [indentStr i ++ "</" ++ name ++ ">"] =
          indentStr i ++ "</" ++ name ++ ">" from rfl]
      simp only [String.data_append, data_lt, data_gt, data_closeTag,
        data_nl, List.append_assoc, List.cons_append, List.singleton_append,
        List.nil_append]
      rw [scanSt_skip (indentStr i).data hsp _ _,
        scanSt_openTag name hne hlt hsl _ cur mx,
        scanSt_char '\n' (by decide) _ _,
        scanSt_to_xml_list (c0 :: cs0) hcs (by simp) (i + 1) _ (cur + 1)
          (max mx (cur + 1)),
        scanSt_char '\n' (by decide) _ _,
        scanSt_skip (indentStr i).data hsp _ _,
        scanSt_closeTag name hlt _ _ _]
      rw [hdepth]
      have harith : (cur + 1 - 1,
          max (max mx (cur + 1))
            ((cur + 1) + XMLComposite.depthList (c0 :: cs0))) =
          (cur, max mx (cur + (1 + XMLComposite.depthList (c0 :: cs0)))) :=
        Prod.ext (by omega) (by omega)
      rw [harith]
    | nil =>
      by_cases htr : truthyOpt av = true
      · obtain ⟨v, hv, hvne⟩ := truthyOpt_some av htr
        subst hv
        have hvlt : ∀ c ∈ v.data, c ≠ '<' := fun c hc =>
          (tameValue_unpack v hav c hc).1
        rw [show XMLComposite.to_xml (.node name (some v) []) i =
            indentStr i ++ "<" ++ name ++ ">" ++ v ++ "</" ++ name ++ ">"
            from by
          rw [XMLComposite.to_xml, if_neg (by simp), if_pos htr]
          rfl]
        simp only [String.data_append, data_lt, data_gt, data_closeTag,
          data_nl, List.append_assoc, List.cons_append,
          List.singleton_append, List.nil_append]
        rw [scanSt_skip (indentStr i).data hsp _ _,
          scanSt_openTag name hne hlt hsl _ cur mx,
          scanSt_skip v.data hvlt _ _,
          scanSt_closeTag name hlt _ _ _]
        rw [hdepth]
        simp only [show XMLComposite.depthList [] = 0 from rfl]
        exact congrArg (scanSt tail) (Prod.ext (by omega) (by omega))
      · rw [show XMLComposite.to_xml (.node name av []) i =
            indentStr i ++ "<" ++ name ++ ">" ++ "\n" ++
              indentStr i ++ "</" ++ name ++ ">" from by
          rw [XMLComposite.to_xml, if_neg (by simp),
            if_neg (by simpa using htr)]]
        simp only [String.data_append, data_lt, data_gt, data_closeTag,
          data_nl, List.append_assoc, List.cons_append,
          List.singleton_append, List.nil_append]
        rw [scanSt_skip (indentStr i).data hsp _ _,
          scanSt_openTag name hne hlt hsl _ cur mx,
          scanSt_char '\n' (by decide) _ _,
          scanSt_skip (indentStr i).data hsp _ _,
          scanSt_closeTag name hlt _ _ _]
        rw [hdepth]
        simp only [show XMLComposite.depthList [] = 0 from rfl]
        exact congrArg (scanSt tail) (Prod.ext (by omega) (by omega))

theorem scanSt_to_xml_list : ∀ (cs : List XMLComposite),
    tameTreeList cs = true → cs ≠ [] →
    ∀ (i : Nat) (tail : List Char) (cur mx : Nat),
    scanSt ((joinLines (XMLComposite.to_xml_list cs i)).data ++ tail)
      (cur, mx) =
      scanSt tail (cur, max mx (cur + XMLComposite.depthList cs))
  | [] => by intro _ hne; cases hne rfl
  | [c] => by
    intro h _ i tail cur mx
    rw [tameTreeList] at h
    rw [Bool.and_eq_true] at h
    rw [show joinLines (XMLComposite.to_xml_list [c] i) =
      XMLComposite.to_xml c i from rfl]
    rw [scanSt_to_xml c h.1 i tail cur mx]
    rw [show XMLComposite.depthList [c] =
      max (XMLComposite.depth c) (XMLComposite.depthList []) from rfl,
      show XMLComposite.depthList [] = 0 from rfl, Nat.max_zero]
  | c :: c2 :: cs' => by
    intro h hne i tail cur mx
    rw [tameTreeList] at h
    rw [Bool.and_eq_true] at h
    obtain ⟨htc, hrest⟩ := h
    rw [show XMLComposite.to_xml_list (c :: c2 :: cs') i =
        XMLComposite.to_xml c i :: XMLComposite.to_xml_list (c2 :: cs') i
        from rfl,
      joinLines_cons _ _ (show XMLComposite.to_xml_list (c2 :: cs') i ≠ []
        from by rw [XMLComposite.to_xml_list]; simp)]
    simp only [String.data_append, data_nl, List.append_assoc,
      List.cons_append, List.singleton_append, List.nil_append]
    rw [scanSt_to_xml c htc i _ cur mx,
      scanSt_char '\n' (by decide) _ _,
      scanSt_to_xml_list (c2 :: cs') hrest (by simp) i tail cur
        (max mx (cur + XMLComposite.depth c))]
    have harith : max (max mx (cur + XMLComposite.depth c))
        (cur + XMLComposite.depthList (c2 :: cs')) =
        max mx (cur + XMLComposite.depthList (c :: c2 :: cs')) := by
      rw [show XMLComposite.depthList (c :: c2 :: cs') =
        max (XMLComposite.depth c) (XMLComposite.depthList (c2 :: cs'))
        from rfl]
      omega
    rw [harith]

end

theorem tagDepth_to_xml (t : XMLComposite) (ht : tameTree t = true) :
    tagDepth (XMLComposite.to_xml t 0) = XMLComposite.depth t := by
  unfold tagDepth
  rw [show (XMLComposite.to_xml t 0).data =
      (XMLComposite.to_xml t 0).data ++ [] from (List.append_nil _).symm,
    scanSt_to_xml t ht 0 [] 0 0]
  simp [scanSt]

mutual

theorem tameTree_noNl : ∀ (t : XMLComposite), tameTree t = true →
    noNlTree t = true
  | .node m av cs => by
    intro h
    rw [tameTree.eq_def] at h
    simp only [Bool.and_eq_true] at h
    obtain ⟨⟨hm, hav⟩, hcs⟩ := h
    rw [noNlTree.eq_def]
    simp only [Bool.and_eq_true]
    refine ⟨⟨?_, ?_⟩, tameTreeList_noNl cs hcs⟩
    · obtain ⟨-, h3, -⟩ := tameName_unpack m hm
      unfold noNlStr
      rw [List.all_eq_true]
      intro c hc
      simp only [decide_eq_true_eq]
      exact (h3 c hc).2.2
    · cases av with
      | none => rfl
      | some v =>
        unfold noNlStr
        rw [List.all_eq_true]
        intro c hc
        simp only [decide_eq_true_eq]
        exact (tameValue_unpack v hav c hc).2

theorem tameTreeList_noNl : ∀ (cs : List XMLComposite),
    tameTreeList cs = true → noNlList cs = true
  | [] => fun _ => rfl
  | c :: cs => by
    intro h
    rw [tameTreeList] at h
    rw [Bool.and_eq_true] at h
    rw [noNlList, Bool.and_eq_true]
    exact ⟨tameTree_noNl c h.1, tameTreeList_noNl cs h.2⟩

end

theorem dropWhile_space_append (l₂ : List Char) : ∀ l₁ : List Char,
    (∀ c ∈ l₁, c = ' ') →
    (l₁ ++ l₂).dropWhile (fun c => c = ' ') =
      l₂.dropWhile (fun c => c = ' ') := by
  intro l₁
  induction l₁ with
  | nil => intro _; rfl
  | cons c l' ih =>
    intro h
    rw [List.cons_append, List.dropWhile_cons,
      if_pos (by simp [h c (List.mem_cons_self c l')])]
    exact ih (fun x hx => h x (List.mem_cons_of_mem _ hx))

theorem stripIndent_indent (i : Nat) (s : String) :
    stripIndent (indentStr i ++ s) = stripIndent s := by
  unfold stripIndent
  rw [String.data_append, dropWhile_space_append s.data _ (indentStr_space i)]

theorem stripIndent_lt (s : String) (h : s.data.head? = some '<') :
    stripIndent s = s := by
  unfold stripIndent
  rcases hd : s.data with _ | ⟨c, l⟩
  · rw [hd] at h
    cases h
  · rw [hd] at h
    injection h with h
    rw [List.dropWhile_cons, if_neg (by rw [h]; simp), ← hd]
    rfl

theorem stripIndent_ind_lt (i : Nat) (s : String)
    (h : s.data.head? = some '<') :
    stripIndent (indentStr i ++ s) = s := by
  rw [stripIndent_indent, stripIndent_lt s h]

theorem leafTag_data (m w : String) :
    (leafTagStr m w).data =
      '<' :: (m.data ++ '>' :: (w.data ++ '<' :: '/' :: (m.data ++ ['>']))) := by
  simp [leafTagStr, String.data_append, data_lt, data_gt, data_closeTag]

theorem openTag_data (m : String) :
    ("<" ++ (m ++ ">")).data = '<' :: (m.data ++ ['>']) := by
  simp [String.data_append, data_lt, data_gt]

theorem closeTag_data (m : String) :
    ("</" ++ (m ++ ">")).data = '<' :: '/' :: (m.data ++ ['>']) := by
  simp [String.data_append, data_closeTag, data_gt]

theorem append_gt_inj : ∀ (a b x y : List Char),
    (∀ c ∈ a, c ≠ '>') → (∀ c ∈ b, c ≠ '>') →
    a ++ '>' :: x = b ++ '>' :: y → a = b ∧ x = y
  | [], [], x, y => by
    intro _ _ h
    rw [List.nil_append, List.nil_append] at h
    injection h with _ h
    exact ⟨rfl, h⟩
  | [], d :: b', x, y => by
    intro _ hb h
    rw [List.nil_append, List.cons_append] at h
    injection h with h1 _
    exact absurd h1.symm (hb d (List.mem_cons_self d b'))
  | c :: a', [], x, y => by
    intro ha _ h
    rw [List.cons_append, List.nil_append] at h
    injection h with h1 _
    exact absurd h1 (ha c (List.mem_cons_self c a'))
  | c :: a', d :: b', x, y => by
    intro ha hb h
    rw [List.cons_append, List.cons_append] at h
    injection h with h1 h2
    obtain ⟨ih1, ih2⟩ := append_gt_inj a' b' x y
      (fun e he => ha e (List.mem_cons_of_mem _ he))
      (fun e he => hb e (List.mem_cons_of_mem _ he)) h2
    exact ⟨by rw [h1, ih1], ih2⟩

theorem leafTag_inj (m w n' v' : String) (hm : ∀ c ∈ m.data, c ≠ '>')
    (hn : ∀ c ∈ n'.data, c ≠ '>') :
    leafTagStr m w = leafTagStr n' v' ↔ (m = n' ∧ w = v') := by
  constructor
  · intro h
    have hd := congrArg String.data h
    rw [leafTag_data, leafTag_data] at hd
    injection hd with _ hd
    obtain ⟨h1, h2⟩ := append_gt_inj m.data n'.data _ _ hm hn hd
    have hmn : m = n' := String.ext h1
    subst hmn
    refine ⟨rfl, ?_⟩
    obtain ⟨h3, -⟩ := List.append_inj h2 (by
      have := congrArg List.length h2
      simp only [List.length_append] at this
      omega)
    exact String.ext h3
  · rintro ⟨rfl, rfl⟩
    rfl

theorem count_gt_leafTag (m w : String) (hm : ∀ c ∈ m.data, c ≠ '>') :
    (leafTagStr m w).data.count '>' = 2 + w.data.count '>' := by
  rw [leafTag_data]
  have hm0 : m.data.count '>' = 0 :=
    List.count_eq_zero.mpr (fun hmem => hm '>' hmem rfl)
  simp [List.count_cons, List.count_append, hm0]
  omega

theorem count_gt_openTag (m : String) (hm : ∀ c ∈ m.data, c ≠ '>') :
    ("<" ++ (m ++ ">")).data.count '>' = 1 := by
  rw [openTag_data]
  have hm0 : m.data.count '>' = 0 :=
    List.count_eq_zero.mpr (fun hmem => hm '>' hmem rfl)
  simp [List.count_cons, List.count_append, hm0]

theorem count_gt_closeTag (m : String) (hm : ∀ c ∈ m.data, c ≠ '>') :
    ("</" ++ (m ++ ">")).data.count '>' = 1 := by
  rw [closeTag_data]
  have hm0 : m.data.count '>' = 0 :=
    List.count_eq_zero.mpr (fun hmem => hm '>' hmem rfl)
  simp [List.count_cons, List.count_append, hm0]

theorem openTag_ne_leafTag (m n' v' : String) (hm : ∀ c ∈ m.data, c ≠ '>')
    (hn : ∀ c ∈ n'.data, c ≠ '>') :
    ("<" ++ (m ++ ">")) ≠ leafTagStr n' v' := by
  intro h
  have hc := congrArg (fun s => s.data.count '>') h
  rw [show (fun s => s.data.count '>') ("<" ++ (m ++ ">")) =
      ("<" ++ (m ++ ">")).data.count '>' from rfl] at hc
  rw [show (fun s => s.data.count '>') (leafTagStr n' v') =
      (leafTagStr n' v').data.count '>' from rfl] at hc
  rw [count_gt_openTag m hm, count_gt_leafTag n' v' hn] at hc
  omega

theorem closeTag_ne_leafTag (m n' v' : String) (hm : ∀ c ∈ m.data, c ≠ '>')
    (hn : ∀ c ∈ n'.data, c ≠ '>') :
    ("</" ++ (m ++ ">")) ≠ leafTagStr n' v' := by
  intro h
  have hc := congrArg (fun s => s.data.count '>') h
  rw [show (fun s => s.data.count '>') ("</" ++ (m ++ ">")) =
      ("</" ++ (m ++ ">")).data.count '>' from rfl] at hc
  rw [show (fun s => s.data.count '>') (leafTagStr n' v') =
      (leafTagStr n' v').data.count '>' from rfl] at hc
  rw [count_gt_closeTag m hm, count_gt_leafTag n' v' hn] at hc
  omega

mutual

theorem count_render (n v : String) (hn : ∀ c ∈ n.data, c ≠ '>')
    (hvne : v ≠ "") :
    ∀ (t : XMLComposite), tameTree t = true → ∀ i : Nat,
    ((renderLines t i).map stripIndent).count (leafTagStr n v) =
      leafCount n v t
  | .node m av cs => by
    intro h i
    rw [tameTree.eq_def] at h
    simp only [Bool.and_eq_true] at h
    obtain ⟨⟨hm, hav⟩, hcs⟩ := h
    obtain ⟨hmne, hm3, hmsl⟩ := tameName_unpack m hm
    have hmgt : ∀ c ∈ m.data, c ≠ '>' := fun c hc => (hm3 c hc).2.1
    cases cs with
    | cons c0 cs0 =>
      have hso : stripIndent (indentStr i ++ "<" ++ m ++ ">") =
          "<" ++ (m ++ ">") := by
        rw [show indentStr i ++ "<" ++ m ++ ">" =
          indentStr i ++ ("<" ++ (m ++ ">")) from by simp [String.append_assoc]]
        exact stripIndent_ind_lt i _ (by rw [openTag_data]; rfl)
      have hsc : stripIndent (indentStr i ++ "</" ++ m ++ ">") =
          "</" ++ (m ++ ">") := by
        rw [show indentStr i ++ "</" ++ m ++ ">" =
          indentStr i ++ ("</" ++ (m ++ ">")) from by simp [String.append_assoc]]
        exact stripIndent_ind_lt i _ (by rw [closeTag_data]; rfl)
      have h1 := openTag_ne_leafTag m n v hmgt hn
      have h2 := closeTag_ne_leafTag m n v hmgt hn
      rw [renderLines, if_pos (show (c0 :: cs0).isEmpty = false from rfl)]
      simp only [List.map_cons, List.map_append, List.map_nil]
      rw [hso, hsc,
        show leafCount n v (.node m av (c0 :: cs0)) =
          leafCountList n v (c0 :: cs0) from by
            rw [leafCount]
            exact if_neg (by simp)]
      rw [List.count_cons_of_ne (fun hh => h1 hh.symm), List.count_append]
      rw [count_render_list n v hn hvne (c0 :: cs0) hcs (i + 1)]
      rw [show ([("</" ++ (m ++ ">"))].count (leafTagStr n v)) = 0 from by
        rw [List.count_singleton']
        simp [h2], Nat.add_zero]
    | nil =>
      by_cases htr : truthyOpt av = true
      · obtain ⟨w, hw, hwne⟩ := truthyOpt_some av htr
        subst hw
        rw [renderLines, if_neg (by simp), if_pos htr,
          show (some w).getD "" = w from rfl]
        have hsl2 : stripIndent
            (indentStr i ++ "<" ++ m ++ ">" ++ w ++ "</" ++ m ++ ">") =
            leafTagStr m w := by
          rw [show indentStr i ++ "<" ++ m ++ ">" ++ w ++ "</" ++ m ++ ">" =
            indentStr i ++ leafTagStr m w from by
              simp [leafTagStr, String.append_assoc]]
          exact stripIndent_ind_lt i _ (by rw [leafTag_data]; rfl)
        simp only [List.map_cons, List.map_nil]
        rw [hsl2,
          show leafCount n v (.node m (some w) []) =
            (if m = n ∧ some w = some v then 1 else 0) from by
              rw [leafCount]
              exact if_pos rfl]
        by_cases heq : m = n ∧ w = v
        · rw [List.count_singleton',
            if_pos ((leafTag_inj m w n v hmgt hn).mpr heq),
            if_pos (⟨heq.1, congrArg some heq.2⟩ : m = n ∧ some w = some v)]
        · rw [List.count_singleton',
            if_neg (fun hh => heq ((leafTag_inj m w n v hmgt hn).mp hh)),
            if_neg (fun hh => heq ⟨hh.1, Option.some.inj hh.2⟩)]
      · have havne : av ≠ some v := by
          intro hh
          apply htr
          rw [hh, show truthyOpt (some v) = (if v = "" then false else true)
            from rfl, if_neg hvne]
        have hso : stripIndent (indentStr i ++ "<" ++ m ++ ">") =
            "<" ++ (m ++ ">") := by
          rw [show indentStr i ++ "<" ++ m ++ ">" =
            indentStr i ++ ("<" ++ (m ++ ">")) from by
              simp [String.append_assoc]]
          exact stripIndent_ind_lt i _ (by rw [openTag_data]; rfl)
        have hsc : stripIndent (indentStr i ++ "</" ++ m ++ ">") =
            "</" ++ (m ++ ">") := by
          rw [show indentStr i ++ "</" ++ m ++ ">" =
            indentStr i ++ ("</" ++ (m ++ ">")) from by
              simp [String.append_assoc]]
          exact stripIndent_ind_lt i _ (by rw [closeTag_data]; rfl)
        have h1 := openTag_ne_leafTag m n v hmgt hn
        have h2 := closeTag_ne_leafTag m n v hmgt hn
        rw [renderLines, if_neg (by simp), if_neg (by simpa using htr)]
        simp only [List.map_cons, List.map_nil]
        rw [hso, hsc,
          show leafCount n v (.node m av []) =
            (if m = n ∧ av = some v then 1 else 0) from by
              rw [leafCount]
              exact if_pos rfl,
          if_neg (fun hh => havne hh.2),
          List.count_cons_of_ne (fun hh => h1 hh.symm),
          List.count_singleton']
        simp [h2]

theorem count_render_list (n v : String) (hn : ∀ c ∈ n.data, c ≠ '>')
    (hvne : v ≠ "") :
    ∀ (cs : List XMLComposite), tameTreeList cs = true → ∀ i : Nat,
    ((renderLinesList cs i).map stripIndent).count (leafTagStr n v) =
      leafCountList n v cs
  | [] => by intro _ i; rfl
  | c :: cs' => by
    intro h i
    rw [tameTreeList] at h
    rw [Bool.and_eq_true] at h
    rw [renderLinesList, List.map_append, List.count_append,
      count_render n v hn hvne c h.1 i,
      count_render_list n v hn hvne cs' h.2 i, leafCountList]

end

theorem mem_of_dlookup {α : Type} (d : Doc α) (k : String) (v : α)
    (h : dlookup d k = some v) : (k, v) ∈ d := by
  induction d with
  | nil => cases h
  | cons p rest ih =>
    rw [dlookup] at h
    by_cases hpk : p.1 = k
    · rw [if_pos hpk] at h
      rw [List.mem_cons]
      exact Or.inl (Prod.ext hpk.symm (Option.some.inj h).symm)
    · rw [if_neg hpk] at h
      exact List.mem_cons_of_mem _ (ih h)

theorem build_children_tame (buildChild : String → Option XMLComposite)
    (hb : ∀ m u, buildChild m = some u → tameTree u = true) :
    ∀ (ps : List ParameterRecord),
    (∀ p ∈ ps, tameName p.name = true ∧ tameValue p.type = true) →
    ∀ cs, build_children buildChild ps = some cs → tameTreeList cs = true
  | [], _, cs => by
    intro h
    rw [build_children] at h
    injection h with h
    subst h
    rfl
  | p :: rest, hps, cs => by
    intro h
    rw [build_children] at h
    cases he1 : (if p.type = "class" then buildChild p.name
        else some (XMLComposite.node p.name (some p.type) [])) with
    | none =>
      rw [he1] at h
      exact Option.noConfusion h
    | some child =>
      simp only [he1] at h
      cases he2 : build_children buildChild rest with
      | none =>
        rw [he2] at h
        exact Option.noConfusion h
      | some cs' =>
        simp only [he2] at h
        injection h with h
        subst h
        rw [tameTreeList, Bool.and_eq_true]
        refine ⟨?_, build_children_tame buildChild hb rest
          (fun q hq => hps q (List.mem_cons_of_mem _ hq)) cs' he2⟩
        by_cases hcl : p.type = "class"
        · rw [if_pos hcl] at he1
          exact hb p.name child he1
        · rw [if_neg hcl] at he1
          injection he1 with he1
          subst he1
          rw [tameTree.eq_def]
          simp only [Bool.and_eq_true]
          exact ⟨⟨(hps p (List.mem_cons_self p rest)).1,
            (hps p (List.mem_cons_self p rest)).2⟩, rfl⟩

theorem build_tame (data : Doc ClassRecord) (hmodel : tameModel data = true) :
    ∀ (fuel : Nat) (class_name : String) (t : XMLComposite),
    build_component_obj data fuel class_name = some t → tameTree t = true
  | 0, _, _ => by intro h; cases h
  | fuel + 1, class_name, t => by
    intro h
    rw [build_component_obj] at h
    cases hl : dlookup data class_name with
    | none =>
      rw [hl] at h
      exact Option.noConfusion h
    | some record =>
      simp only [hl] at h
      cases hbc : build_children (fun m => build_component_obj data fuel m)
          record.parameters with
      | none =>
        rw [hbc] at h
        exact Option.noConfusion h
      | some cs =>
        simp only [hbc] at h
        injection h with h
        subst h
        have hcl := List.all_eq_true.mp hmodel _
          (mem_of_dlookup data class_name record hl)
        simp only [Bool.and_eq_true] at hcl
        rw [tameTree.eq_def]
        simp only [Bool.and_eq_true]
        refine ⟨⟨hcl.1, trivial⟩, ?_⟩
        refine build_children_tame _
          (fun m u hu => build_tame data hmodel fuel m u hu)
          record.parameters (fun q hq => ?_) cs hbc
        have := List.all_eq_true.mp hcl.2 q hq
        simpa using this

theorem leafCount_node_none (n v m : String) : ∀ (cs : List XMLComposite),
    leafCount n v (XMLComposite.node m none cs) = leafCountList n v cs
  | [] => by
    rw [leafCount]
    simp [leafCountList]
  | c :: cs' => by
    rw [leafCount]
    exact if_neg (by simp)

theorem build_children_leafCount (n v : String)
    (buildChild : String → Option XMLComposite) (countOf : String → Nat)
    (hb : ∀ m u, buildChild m = some u → leafCount n v u = countOf m) :
    ∀ (ps : List ParameterRecord) (cs : List XMLComposite),
    build_children buildChild ps = some cs →
    leafCountList n v cs = modelLeafCountParams countOf n v ps
  | [], cs => by
    intro h
    rw [build_children] at h
    injection h with h
    subst h
    rfl
  | p :: rest, cs => by
    intro h
    rw [build_children] at h
    cases he1 : (if p.type = "class" then buildChild p.name
        else some (XMLComposite.node p.name (some p.type) [])) with
    | none =>
      rw [he1] at h
      exact Option.noConfusion h
    | some child =>
      simp only [he1] at h
      cases he2 : build_children buildChild rest with
      | none =>
        rw [he2] at h
        exact Option.noConfusion h
      | some cs' =>
        simp only [he2] at h
        injection h with h
        subst h
        rw [leafCountList, modelLeafCountParams,
          build_children_leafCount n v buildChild countOf hb rest cs' he2]
        congr 1
        by_cases hcl : p.type = "class"
        · rw [if_pos hcl] at he1
          rw [if_pos hcl]
          exact hb p.name child he1
        · rw [if_neg hcl] at he1
          rw [if_neg hcl]
          injection he1 with he1
          subst he1
          rw [leafCount, if_pos (show ([] : List XMLComposite).isEmpty = true
            from rfl)]
          by_cases hc : p.name = n ∧ p.type = v
          · rw [if_pos (⟨hc.1, congrArg some hc.2⟩ :
              p.name = n ∧ some p.type = some v), if_pos hc]
          · rw [if_neg (fun hh => hc ⟨hh.1, Option.some.inj hh.2⟩), if_neg hc]

theorem leafCount_build (data : Doc ClassRecord) (n v : String) :
    ∀ (fuel : Nat) (class_name : String) (t : XMLComposite),
    build_component_obj data fuel class_name = some t →
    leafCount n v t = modelLeafCount data n v fuel class_name
  | 0, _, _ => by intro h; cases h
  | fuel + 1, class_name, t => by
    intro h
    rw [build_component_obj] at h
    rw [modelLeafCount]
    cases hl : dlookup data class_name with
    | none =>
      rw [hl] at h
      exact Option.noConfusion h
    | some record =>
      simp only [hl] at h ⊢
      cases hbc : build_children (fun m => build_component_obj data fuel m)
          record.parameters with
      | none =>
        rw [hbc] at h
        exact Option.noConfusion h
      | some cs =>
        simp only [hbc] at h
        injection h with h
        subst h
        rw [leafCount_node_none]
        exact build_children_leafCount n v _ _
          (fun m u hu => leafCount_build data n v fuel m u hu)
          record.parameters cs hbc

/-- **C4.**  The spec's claim — that the rendered string's tag-nesting depth
equals the class-reference chain depth from the root — is refuted by
`render_depth_counterexample` (a root class with one primitive attribute
renders at depth 2 while its chain depth is 1).  Amended claim, proved here:
for a well-behaved class model, the string rendered from a successfully
built component tree has tag-nesting depth equal to the nesting depth of
that tree (one level per composite node, so one more than the chain depth
whenever a deepest class carries a primitive attribute), and each primitive
leaf tag `<n>v</n>` occurs as a line of the output (up to indentation)
exactly as often as the model has reachable `(n, v)`-attribute occurrences
from the root class. -/
theorem render_built_tree_spec (data : Doc ClassRecord) (fuel : Nat)
    (root_name : String) (t : XMLComposite)
    (hmodel : tameModel data = true)
    (hbuild : build_component_obj data fuel root_name = some t) :
    tagDepth (XMLComposite.to_xml t 0) = XMLComposite.depth t ∧
    ∀ n v : String, (∀ c ∈ n.data, c ≠ '>') → v ≠ "" →
      leafLineCount (XMLComposite.to_xml t 0) n v =
        modelLeafCount data n v fuel root_name := by
  have htame : tameTree t = true := build_tame data hmodel fuel root_name t hbuild
  refine ⟨tagDepth_to_xml t htame, ?_⟩
  intro n v hn hv
  rw [leafLineCount,
    show strLines (XMLComposite.to_xml t 0) = renderLines t 0 from by
      rw [to_xml_eq_joinLines]
      exact strLines_joinLines _ (renderLines_ne_nil t 0)
        (fun l hl => renderLines_noNl t (tameTree_noNl t htame) 0 l hl),
    count_render n v hn hv t htame 0,
    leafCount_build data n v fuel root_name t hbuild]

theorem render_built_tree_spec_witness :
    tameModel [("Car",
        (⟨"Car", "", true, [⟨"speed", "int"⟩], none, none⟩ : ClassRecord))] =
      true ∧
    build_component_obj
        [("Car", ⟨"Car", "", true, [⟨"speed", "int"⟩], none, none⟩)] 2 "Car" =
      some (XMLComposite.node "Car" none
        [XMLComposite.node "speed" (some "int") []]) ∧
    tagDepth (XMLComposite.to_xml (XMLComposite.node "Car" none
        [XMLComposite.node "speed" (some "int") []]) 0) =
      XMLComposite.depth (XMLComposite.node "Car" none
        [XMLComposite.node "speed" (some "int") []]) ∧
    leafLineCount (XMLComposite.to_xml (XMLComposite.node "Car" none
        [XMLComposite.node "speed" (some "int") []]) 0) "speed" "int" =
      modelLeafCount
        [("Car", ⟨"Car", "", true, [⟨"speed", "int"⟩], none, none⟩)]
        "speed" "int" 2 "Car" := by
  have hspec := render_built_tree_spec
    [("Car", ⟨"Car", "", true, [⟨"speed", "int"⟩], none, none⟩)] 2 "Car"
    (XMLComposite.node "Car" none [XMLComposite.node "speed" (some "int") []])
    (by decide) rfl
  exact ⟨by decide, rfl, hspec.1,
    hspec.2 "speed" "int" (by decide) (by decide)⟩

end Yadro
